import Mathlib

/-!
# Verification of the `myte` batch pipeline orchestrator (`src/tree.rs`)

Shallow embedding of the gene-tree / species-tree / concordance-factor /
MSC-tree pipeline stages of `src/tree.rs`.  The filesystem is modelled as an
association list of (path, content) pairs plus a list of created directories;
the external programs (IQ-TREE, ASTRAL) are modelled by an oracle giving, for
each input path, the exit status, the captured stdout/stderr byte streams and
the set of files the subprocess leaves in the working directory.  The `glob`
crate yields paths in alphabetical order, which we model by sorting the
matching paths; `*` in a glob pattern does not cross `/`.  The rayon
`par_iter().for_each(...)` dispatch is modelled as an in-order fold over the
discovered paths (jobs touch disjoint files under the stated hypotheses, and
the call only returns after the pool barrier, so the fold is a faithful
linearization of the batch).
-/

namespace Myte

/-! ## Glob matching (`glob::glob`): `*` matches any run of non-`/` chars -/

/-- Star closure: `gstar f cs` holds if `f` accepts some suffix of `cs`
obtained by dropping non-`/` characters from the front. -/
def gstar (f : List Char → Bool) : List Char → Bool
  | [] => f []
  | c :: cs => f (c :: cs) || (decide (c ≠ '/') && gstar f cs)

/-- Wildcard matching of a glob pattern (as chars) against a path (as chars). -/
def gmatch : List Char → List Char → Bool
  | [], [] => true
  | [], _ :: _ => false
  | p :: ps, [] => if p = '*' then gstar (gmatch ps) [] else false
  | p :: ps, c :: cs =>
    if p = '*' then gstar (gmatch ps) (c :: cs)
    else decide (p = c) && gmatch ps cs

/-- Pattern matching on strings, as the `glob` crate does for one path. -/
def globMatch (pat name : String) : Bool := gmatch pat.data name.data

/-! ## Alphabetical ordering of paths (the `glob` crate sorts entries) -/

/-- Codepoint-wise lexicographic `≤` on char lists (byte order for ASCII). -/
def charListLe : List Char → List Char → Bool
  | [], _ => true
  | _ :: _, [] => false
  | a :: as, b :: bs => if a.toNat = b.toNat then charListLe as bs else decide (a.toNat < b.toNat)

/-- Lexicographic `≤` on strings. -/
def strLe (a b : String) : Bool := charListLe a.data b.data

/-- Insert a string into an already sorted list of strings. -/
def insertSorted (x : String) : List String → List String
  | [] => [x]
  | y :: ys => if strLe x y then x :: y :: ys else y :: insertSorted x ys

/-- Insertion sort on strings; models the alphabetical order in which the
`glob` crate yields matching paths. -/
def sortStrings : List String → List String
  | [] => []
  | x :: xs => insertSorted x (sortStrings xs)

/-! ## Path helpers (`std::path::Path`) -/

/-- The final path component (`Path::file_name`, for non-empty file names). -/
def fileName (p : String) : String :=
  String.mk ((p.data.reverse.takeWhile (fun c => c ≠ '/')).reverse)

/-- Split a file name at its last dot into (stem, extension); `none` when the
name has no dot or starts with its only dot (hidden files). -/
def extSplit (name : List Char) : Option (List Char × List Char) :=
  match name.reverse.dropWhile (fun c => c ≠ '.') with
  | [] => none
  | [_] => none
  | _ :: s => some (s.reverse, (name.reverse.takeWhile (fun c => c ≠ '.')).reverse)

/-- `Path::extension`: the part of the file name after its last dot. -/
def fileExt (p : String) : Option String :=
  (extSplit (fileName p).data).map (fun se => String.mk se.2)

/-- Rust `str::trim`: strip leading and trailing whitespace. -/
def trimStr (s : String) : String :=
  String.mk (((s.data.dropWhile Char.isWhitespace).reverse.dropWhile Char.isWhitespace).reverse)

/-- `Path::file_stem`: the file name up to (not including) its last dot. -/
def fileStem (p : String) : Option String :=
  match (fileName p).data with
  | [] => none
  | n =>
    match extSplit n with
    | some se => some (String.mk se.1)
    | none => some (String.mk n)

/-! ## Filesystem model

Paths are plain strings (components joined by `/`); the working directory is
the root.  `files` is an association list from path to file content with
distinct keys in every state the pipeline builds; `dirs` records directories
created with `fs::create_dir_all`. -/

structure FS where
  files : List (String × String)
  dirs : List String
  deriving DecidableEq, Repr

/-- The paths of the existing files. -/
def FS.keys (fs : FS) : List String := fs.files.map Prod.fst

/-- Read a file's content (`File::open` + `read_to_string`). -/
def FS.read (fs : FS) (n : String) : Option String := fs.files.lookup n

/-- `File::create`: truncate-or-create `n` with content `c`. -/
def FS.create (fs : FS) (n c : String) : FS :=
  ⟨(n, c) :: fs.files.filter (fun e => e.1 ≠ n), fs.dirs⟩

/-- `fs::create_dir_all`: create-if-absent, never touches files. -/
def FS.createDirAll (fs : FS) (d : String) : FS :=
  if d ∈ fs.dirs then fs else ⟨fs.files, d :: fs.dirs⟩

/-- `fs::rename src dst`: fails (the caller panics) when `src` is missing;
replaces any existing file at `dst`. -/
def FS.rename (fs : FS) (src dst : String) : Option FS :=
  match fs.read src with
  | none => none
  | some c => some ⟨(dst, c) :: fs.files.filter (fun e => e.1 ≠ src ∧ e.1 ≠ dst), fs.dirs⟩

/-- All file paths matching a glob pattern, in alphabetical order
(`Commons::get_files` in `tree.rs`). -/
def globFS (fs : FS) (pat : String) : List String :=
  sortStrings (fs.keys.filter (globMatch pat))

/-! ## UTF-8 (`std::str::from_utf8`)

`utf8DecodeCps` validates a byte list per RFC 3629 (rejecting overlong forms,
surrogates and codepoints above `0x10FFFF`, exactly as `str::from_utf8` does)
and returns the decoded codepoints. -/

/-- Continuation byte check (`0x80..0xBF`). -/
def isCont (b : Nat) : Bool := decide (0x80 ≤ b ∧ b < 0xC0)

/-- Allowed second byte of a three-byte form (excludes overlong forms and
surrogates). -/
def okE (b0 b1 : Nat) : Bool :=
  if b0 = 0xE0 then decide (0xA0 ≤ b1 ∧ b1 < 0xC0)
  else if b0 = 0xED then decide (0x80 ≤ b1 ∧ b1 < 0xA0)
  else isCont b1

/-- Allowed second byte of a four-byte form (excludes overlong forms and
codepoints above `U+10FFFF`). -/
def okF (b0 b1 : Nat) : Bool :=
  if b0 = 0xF0 then decide (0x90 ≤ b1 ∧ b1 < 0xC0)
  else if b0 = 0xF4 then decide (0x80 ≤ b1 ∧ b1 < 0x90)
  else isCont b1

def utf8DecodeCps : List Nat → Option (List Nat)
  | [] => some []
  | [b0] => if b0 < 0x80 then some [b0] else none
  | [b0, b1] =>
    if b0 < 0x80 then (utf8DecodeCps [b1]).map (fun cs => b0 :: cs)
    else if b0 < 0xC2 then none
    else if b0 < 0xE0 then
      if isCont b1 then some [(b0 - 0xC0) * 64 + (b1 - 0x80)] else none
    else none
  | [b0, b1, b2] =>
    if b0 < 0x80 then (utf8DecodeCps [b1, b2]).map (fun cs => b0 :: cs)
    else if b0 < 0xC2 then none
    else if b0 < 0xE0 then
      if isCont b1 then
        (utf8DecodeCps [b2]).map (fun cs => ((b0 - 0xC0) * 64 + (b1 - 0x80)) :: cs)
      else none
    else if b0 < 0xF0 then
      if okE b0 b1 && isCont b2 then
        some [(b0 - 0xE0) * 4096 + (b1 - 0x80) * 64 + (b2 - 0x80)]
      else none
    else none
  | b0 :: b1 :: b2 :: b3 :: rest =>
    if b0 < 0x80 then (utf8DecodeCps (b1 :: b2 :: b3 :: rest)).map (fun cs => b0 :: cs)
    else if b0 < 0xC2 then none
    else if b0 < 0xE0 then
      if isCont b1 then
        (utf8DecodeCps (b2 :: b3 :: rest)).map
          (fun cs => ((b0 - 0xC0) * 64 + (b1 - 0x80)) :: cs)
      else none
    else if b0 < 0xF0 then
      if okE b0 b1 && isCont b2 then
        (utf8DecodeCps (b3 :: rest)).map
          (fun cs => ((b0 - 0xE0) * 4096 + (b1 - 0x80) * 64 + (b2 - 0x80)) :: cs)
      else none
    else if b0 < 0xF5 then
      if okF b0 b1 && isCont b2 && isCont b3 then
        (utf8DecodeCps rest).map
          (fun cs =>
            ((b0 - 0xF0) * 262144 + (b1 - 0x80) * 4096 + (b2 - 0x80) * 64 + (b3 - 0x80)) :: cs)
      else none
    else none

/-- UTF-8 encoding of one Unicode scalar value. -/
def utf8EncodeCp (c : Nat) : List Nat :=
  if c < 0x80 then [c]
  else if c < 0x800 then [0xC0 + c / 64, 0x80 + c % 64]
  else if c < 0x10000 then [0xE0 + c / 4096, 0x80 + c / 64 % 64, 0x80 + c % 64]
  else [0xF0 + c / 262144, 0x80 + c / 4096 % 64, 0x80 + c / 64 % 64, 0x80 + c % 64]

/-- UTF-8 encoding of a codepoint sequence. -/
def utf8Encode (cps : List Nat) : List Nat := (cps.map utf8EncodeCp).flatten

/-- `str::from_utf8(..)` as a Lean string, `none` when invalid (the `unwrap`
on the Rust side then panics). -/
def decodeStr (bs : List Nat) : Option String :=
  (utf8DecodeCps bs).map (fun cps => String.mk (cps.map Char.ofNat))

/-! ## Constants of `tree.rs` -/

def GENE_TREE_NAME : String := "genes.treefiles"
def GENE_TREE_OUTPUT_DIR : String := "iqtree-genes"
def GENE_TREE_DIR : String := "gene-treefiles"
def SPECIES_TREE_PREFIX : String := "concat"
def SPECIES_TREE_OUTPUT_DIR : String := "iqtree-species-tree"
def CONCORD_FACTOR_OUTPUT_DIR : String := "iqtree-CF"
def CONCORD_FACTOR_PREFIX : String := "concord"
def ASTRAL_TREE_NAME : String := "msc_astral.tree"
def ASTRAL_LOG_NAME : String := "msc_astral.log"

/-- The glob over the tree-output directory used by `combine_gene_trees`. -/
def TREE_GLOB : String := GENE_TREE_DIR ++ "/*.treefile"

/-! ## Subprocess model

`std::process::Output`: exit status plus captured stdout/stderr as raw byte
streams.  The behaviour of the external executable for one invocation — its
exit status, captured streams, and the `<prefix>.*` files it leaves in the
working directory — is opaque to the orchestrator and is supplied by an
oracle keyed on the input path. -/

structure Output where
  success : Bool
  stdout : List Nat
  stderr : List Nat
  deriving DecidableEq, Repr

structure SubprocResult where
  out : Output
  produced : List (String × String)
  deriving DecidableEq, Repr

/-- External-program behaviour, one result per input path. -/
def Oracle : Type := String → SubprocResult

/-- One entry of the failure log written by `check_process_success`. -/
structure LogEvent where
  path : String
  stdout : String
  stderr : String
  deriving DecidableEq, Repr

/-- `Commons::check_process_success`: on non-zero exit, log the input path
with both captured streams decoded by `str::from_utf8(..).unwrap()`; the
`unwrap` panics (`none`) when a stream is not valid UTF-8. -/
def check_process_success (out : Output) (path : String) : Option (List LogEvent) :=
  if out.success then some []
  else
    match decodeStr out.stdout, decodeStr out.stderr with
    | some o, some e => some [⟨path, o, e⟩]
    | _, _ => none

/-! ## Argument construction (`Process::run_iqtree` and friends)

`run_iqtree` spawns `iqtree2 -s <path> --prefix <pfx>` followed by the
thread-count default and the parameter override handling; the subprocess
itself is covered by the oracle, so the argument list is modelled
separately. -/

/-- Helper for `splitWhitespace`: accumulate the current word (reversed). -/
def splitWsAux : List Char → List Char → List String
  | [], acc => if acc.isEmpty then [] else [String.mk acc.reverse]
  | c :: cs, acc =>
    if c.isWhitespace then
      if acc.isEmpty then splitWsAux cs [] else String.mk acc.reverse :: splitWsAux cs []
    else splitWsAux cs (c :: acc)

/-- Rust `str::split_whitespace`: split on runs of whitespace, no empties. -/
def splitWhitespace (s : String) : List String := splitWsAux s.data []

/-- `Process::get_iqtree_params`. -/
def get_iqtree_params : Option String → List String
  | some p => splitWhitespace p
  | none => ["-B", "1000"]

/-- `Process::get_thread_num`. -/
def get_thread_num : Option String → List String
  | some _ => []
  | none => ["-T", "1"]

/-- The argument list `Process::run_iqtree` passes to `iqtree2`. -/
def run_iqtree_args (path pfx : String) (params : Option String) : List String :=
  ["-s", path, "--prefix", pfx] ++ get_thread_num params ++ get_iqtree_params params

/-- The argument list `Process::run_iqtree_concord` passes to `iqtree2`;
`cores` stands for `num_cpus::get_physical()`. -/
def run_iqtree_concord_args (path pfx : String) (cores : Nat) : List String :=
  ["-t", "concat.treefile", "--gcf", GENE_TREE_NAME, "-p", path,
   "--scf", "100", "-T", toString cores, "--prefix", pfx]

/-- The argument list `Process::run_astral` passes to `astral.sh`. -/
def run_astral_args : List String :=
  ["-i", GENE_TREE_NAME, "-o", ASTRAL_TREE_NAME]

/-- `Process::get_iqtree_files`: all files matching `<pfx>.*`. -/
def get_iqtree_files (fs : FS) (pfx : String) : List String :=
  globFS fs (pfx ++ ".*")

/-! ## Gene-Tree Batch Stage (`GeneTrees`) -/

inductive InputFmt
  | Fasta
  | Nexus
  | Phylip
  deriving DecidableEq, Repr

/-- `GeneTrees::get_pattern`. -/
def getPattern (path : String) : InputFmt → String
  | .Fasta => path ++ "/*.fa*"
  | .Nexus => path ++ "/*.nex*"
  | .Phylip => path ++ "/*.phy*"

/-- `GeneTrees::organize_gene_files`: create `iqtree-genes/<pfx>`, then move
each collected file — `*.treefile` into `gene-treefiles/`, everything else
into `iqtree-genes/<pfx>/`.  `none` models a panic (`extension().unwrap()` or
a failing `fs::rename`). -/
def organize_gene_files (fs : FS) (files : List String) (pfx : String) : Option FS :=
  files.foldlM
    (fun f file =>
      match fileExt file with
      | none => none
      | some ext =>
        if ext = "treefile" then f.rename file (GENE_TREE_DIR ++ "/" ++ file)
        else f.rename file (GENE_TREE_OUTPUT_DIR ++ "/" ++ pfx ++ "/" ++ file))
    ((fs.createDirAll GENE_TREE_OUTPUT_DIR).createDirAll (GENE_TREE_OUTPUT_DIR ++ "/" ++ pfx))

/-- `GeneTrees::estimate_gene_tree` (one worker): derive the job prefix from
the alignment's file stem, run the subprocess (oracle), check the exit
status, then collect the `<pfx>.*` artifacts. -/
def estimate_gene_tree (oracle : Oracle) (fs : FS) (path : String) :
    Option (FS × List LogEvent) := do
  let pfx ← fileStem path
  let r := oracle path
  let fs1 := r.produced.foldl (fun f nc => f.create nc.1 nc.2) fs
  let ev ← check_process_success r.out path
  let files := get_iqtree_files fs1 pfx
  let fs2 ← organize_gene_files fs1 files pfx
  pure (fs2, ev)

/-- `GeneTrees::par_process_gene_trees`: one job per discovered alignment.
The rayon fan-out is modelled as an in-order fold (see the module header);
the returned job list records one entry per dispatched job. -/
def par_process_gene_trees (oracle : Oracle) (fs : FS) (paths : List String) :
    Option (FS × List LogEvent × List String) :=
  paths.foldlM
    (fun st p =>
      (estimate_gene_tree oracle st.1 p).bind
        (fun r => some (r.1, st.2.1 ++ r.2, st.2.2 ++ [p])))
    (fs, [], [])

/-- `GeneTrees::combine_gene_trees`: sweep `gene-treefiles/*.treefile`,
truncate `genes.treefiles`, and write each tree's trimmed content as one
record; also returns the record list. -/
def combine_gene_trees (fs : FS) : Option (FS × List String) :=
  match (globFS fs TREE_GLOB).mapM (fun t => (fs.create GENE_TREE_NAME "").read t) with
  | none => none
  | some contents =>
    some ((fs.create GENE_TREE_NAME "").create GENE_TREE_NAME
        (String.join ((contents.map trimStr).map (fun r => r ++ "\n"))),
      contents.map trimStr)

/-- Result of one `build_gene_trees` run: `assertFail` is the fatal
`assert!(paths.len() > 1, ..)`, `panic` any later unwrap/expect failure. -/
inductive BuildResult
  | assertFail (fs : FS)
  | panic
  | ok (fs : FS) (logs : List LogEvent) (jobs : List String) (records : List String)
  deriving DecidableEq, Repr

/-- `build_gene_trees` (the Gene-Tree Batch Stage entry point): discover
alignments, abort fatally unless at least two are found, create the
tree-files directory, dispatch one job per alignment, then aggregate. -/
def build_gene_trees (oracle : Oracle) (path : String) (fmt : InputFmt) (fs : FS) :
    BuildResult :=
  if (globFS fs (getPattern path fmt)).length ≤ 1 then .assertFail fs
  else
    match par_process_gene_trees oracle (fs.createDirAll GENE_TREE_DIR)
        (globFS fs (getPattern path fmt)) with
    | none => .panic
    | some (fs2, logs, jobs) =>
      match combine_gene_trees fs2 with
      | none => .panic
      | some (fs3, recs) => .ok fs3 logs jobs recs

/-- The record list of a completed run, for concrete evaluation. -/
def recsOf : BuildResult → Option (List String)
  | .ok _ _ _ recs => some recs
  | _ => none

/-- The dispatched-jobs list of a completed run, for concrete evaluation. -/
def jobsOf : BuildResult → Option (List String)
  | .ok _ _ jobs _ => some jobs
  | _ => none

/-- The log events of a completed run, for concrete evaluation. -/
def logsOf : BuildResult → Option (List LogEvent)
  | .ok _ logs _ _ => some logs
  | _ => none

/-! ## Species-Tree Stage (`SpeciesTree`) -/

/-- `SpeciesTree::organize_species_files`: move every collected file into
`iqtree-species-tree/` except `*.treefile`, which stays in place. -/
def organize_species_files (fs : FS) (files : List String) : Option FS :=
  files.foldlM
    (fun f file =>
      match fileExt file with
      | none => none
      | some ext =>
        if ext ≠ "treefile" then f.rename file (SPECIES_TREE_OUTPUT_DIR ++ "/" ++ file)
        else some f)
    (fs.createDirAll SPECIES_TREE_OUTPUT_DIR)

/-! ## MSC-Tree Stage (`MSCTree`) -/

/-- `MSCTree::write_astral_output`: write the decoded stderr of the ASTRAL
subprocess into `msc_astral.log`. -/
def write_astral_output (out : Output) (fs : FS) : Option FS :=
  (decodeStr out.stderr).map (fun s => fs.create ASTRAL_LOG_NAME s)

/-- `MSCTree::estimate_msc_tree`: run ASTRAL (its `Output` is supplied by the
oracle/environment), check the exit status, and only on success write the
captured stderr to the fixed log file. -/
def estimate_msc_tree (out : Output) (path : String) (fs : FS) :
    Option (FS × List LogEvent) := do
  let ev ← check_process_success out path
  if out.success then
    let fs' ← write_astral_output out fs
    pure (fs', ev)
  else
    pure (fs, ev)

/-! ## Lemmas: sorting is a permutation -/

theorem insertSorted_perm (x : String) (l : List String) :
    List.Perm (insertSorted x l) (x :: l) := by
  induction l with
  | nil => simp [insertSorted]
  | cons y ys ih =>
    simp only [insertSorted]
    split
    · exact List.Perm.refl _
    · exact (ih.cons y).trans (List.Perm.swap x y ys)

theorem sortStrings_perm (l : List String) : List.Perm (sortStrings l) l := by
  induction l with
  | nil => simp [sortStrings]
  | cons x xs ih => exact (insertSorted_perm x (sortStrings xs)).trans (ih.cons x)

theorem globFS_perm (fs : FS) (pat : String) :
    List.Perm (globFS fs pat) (fs.keys.filter (globMatch pat)) := sortStrings_perm _

theorem mem_globFS {fs : FS} {pat n : String} :
    n ∈ globFS fs pat ↔ n ∈ fs.keys ∧ globMatch pat n = true := by
  rw [(globFS_perm fs pat).mem_iff]
  simp [List.mem_filter]

theorem globFS_nodup {fs : FS} (pat : String) (h : fs.keys.Nodup) :
    (globFS fs pat).Nodup :=
  (globFS_perm fs pat).nodup_iff.2 (h.filter _)

theorem globFS_length (fs : FS) (pat : String) :
    (globFS fs pat).length = (fs.keys.filter (globMatch pat)).length :=
  (globFS_perm fs pat).length_eq

/-! ## Lemmas: association-list lookup -/

theorem lookup_eq_none_iff {l : List (String × String)} {n : String} :
    l.lookup n = none ↔ n ∉ l.map Prod.fst := by
  induction l with
  | nil => simp
  | cons e es ih =>
    by_cases h : n = e.1
    · simp [List.lookup, h]
    · simpa [List.lookup, beq_false_of_ne h, h] using ih

theorem mem_of_lookup_eq_some {l : List (String × String)} {n c : String}
    (h : l.lookup n = some c) : (n, c) ∈ l := by
  induction l with
  | nil => simp at h
  | cons e es ih =>
    by_cases hn : n = e.1
    · subst hn
      simp [List.lookup] at h
      exact List.mem_cons.2 (Or.inl (by cases e; simp_all))
    · simp [List.lookup, beq_false_of_ne hn] at h
      exact List.mem_cons_of_mem _ (ih h)

theorem lookup_eq_some_of_mem {l : List (String × String)} {n c : String}
    (hk : (l.map Prod.fst).Nodup) (h : (n, c) ∈ l) : l.lookup n = some c := by
  induction l with
  | nil => simp at h
  | cons e es ih =>
    simp only [List.map_cons, List.nodup_cons] at hk
    rcases List.mem_cons.1 h with h1 | h2
    · simp [← h1, List.lookup]
    · have hne : n ≠ e.1 := by
        intro hEq
        exact hk.1 (hEq ▸ List.mem_map_of_mem Prod.fst h2)
      simp [List.lookup, beq_false_of_ne hne]
      exact ih hk.2 h2

theorem lookup_isSome_of_mem_keys {l : List (String × String)} {n : String}
    (h : n ∈ l.map Prod.fst) : ∃ c, l.lookup n = some c := by
  cases hc : l.lookup n with
  | none => exact absurd (lookup_eq_none_iff.1 hc) (by simp [h])
  | some c => exact ⟨c, rfl⟩

/-! ## Lemmas: filesystem operations -/

theorem lookup_filter_ne {l : List (String × String)} {m n : String} (h : m ≠ n) :
    (l.filter (fun e => e.1 ≠ n)).lookup m = l.lookup m := by
  induction l with
  | nil => simp
  | cons e es ih =>
    rw [List.filter_cons]
    split
    · by_cases hm : m = e.1
      · subst hm
        simp [List.lookup, ih]
      · have hme : (m == e.1) = false := beq_false_of_ne hm
        simp only [List.lookup, hme]
        exact ih
    · next hp =>
        have he : e.1 = n := by simpa using hp
        have hme : (m == e.1) = false := beq_false_of_ne (fun hc => h (hc ▸ he))
        simp only [List.lookup, hme]
        exact ih

theorem lookup_filter_pair_ne {l : List (String × String)} {m a b : String}
    (ha : m ≠ a) (hb : m ≠ b) :
    (l.filter (fun e => e.1 ≠ a ∧ e.1 ≠ b)).lookup m = l.lookup m := by
  induction l with
  | nil => simp
  | cons e es ih =>
    rw [List.filter_cons]
    split
    · by_cases hm : m = e.1
      · subst hm
        simp [List.lookup, ih]
      · have hme : (m == e.1) = false := beq_false_of_ne hm
        simp only [List.lookup, hme]
        exact ih
    · next hp =>
        have hme : m ≠ e.1 := by
          intro hEq
          have hab : e.1 = a ∨ e.1 = b := by
            by_contra hno
            push_neg at hno
            exact hp (by simp [hno.1, hno.2])
          rcases hab with hc | hc
          · exact ha (hEq.trans hc)
          · exact hb (hEq.trans hc)
        have hme' : (m == e.1) = false := beq_false_of_ne hme
        simp only [List.lookup, hme']
        exact ih

theorem FS.read_create_self (fs : FS) (n c : String) : (fs.create n c).read n = some c := by
  simp [FS.create, FS.read, List.lookup]

theorem FS.read_create_ne {fs : FS} {m n c : String} (h : m ≠ n) :
    (fs.create n c).read m = fs.read m := by
  simp only [FS.create, FS.read, List.lookup, beq_false_of_ne h]
  exact lookup_filter_ne h

theorem FS.create_files_of_fresh {fs : FS} {n c : String} (h : n ∉ fs.keys) :
    (fs.create n c).files = (n, c) :: fs.files := by
  simp only [FS.create]
  congr 1
  apply List.filter_eq_self.2
  intro e he
  simp only [decide_eq_true_eq]
  intro hEq
  exact h (hEq ▸ List.mem_map_of_mem Prod.fst he)

theorem FS.createDirAll_files (fs : FS) (d : String) : (fs.createDirAll d).files = fs.files := by
  simp only [FS.createDirAll]
  split <;> rfl

theorem FS.rename_eq_some {fs : FS} {src dst c : String} (h : fs.read src = some c) :
    fs.rename src dst =
      some ⟨(dst, c) :: fs.files.filter (fun e => e.1 ≠ src ∧ e.1 ≠ dst), fs.dirs⟩ := by
  simp [FS.rename, h]

theorem FS.read_rename_other {fs fs' : FS} {src dst m : String}
    (hr : fs.rename src dst = some fs') (hm1 : m ≠ src) (hm2 : m ≠ dst) :
    fs'.read m = fs.read m := by
  unfold FS.rename at hr
  cases hc : fs.read src with
  | none => rw [hc] at hr; exact absurd hr (by simp)
  | some c =>
    rw [hc] at hr
    simp only [Option.some.injEq] at hr
    subst hr
    simp only [FS.read, List.lookup, beq_false_of_ne hm2]
    exact lookup_filter_pair_ne hm1 hm2

/-! ## Lemmas: glob matching -/

theorem gstar_of_split {f : List Char → Bool} {cs : List Char} (j : Nat)
    (hj : ∀ c ∈ cs.take j, c ≠ '/') (hf : f (cs.drop j) = true) : gstar f cs = true := by
  induction cs generalizing j with
  | nil => cases j <;> simpa [gstar] using hf
  | cons c cs ih =>
    cases j with
    | zero =>
      have hfc : f (c :: cs) = true := by simpa using hf
      simp [gstar, hfc]
    | succ j =>
      have hc : c ≠ '/' := hj c (by simp)
      have := ih j (fun d hd => hj d (by simp [hd])) (by simpa using hf)
      simp [gstar, hc, this]

theorem gstar_elim {f : List Char → Bool} {cs : List Char} (h : gstar f cs = true) :
    ∃ j, j ≤ cs.length ∧ (∀ c ∈ cs.take j, c ≠ '/') ∧ f (cs.drop j) = true := by
  induction cs with
  | nil => exact ⟨0, by simpa [gstar] using h⟩
  | cons c cs ih =>
    rw [gstar, Bool.or_eq_true] at h
    rcases h with h | h
    · exact ⟨0, by simp, by simp, by simpa using h⟩
    · rw [Bool.and_eq_true, decide_eq_true_eq] at h
      obtain ⟨j, hj1, hj2, hj3⟩ := ih h.2
      refine ⟨j + 1, by simpa using hj1, ?_, by simpa using hj3⟩
      intro d hd
      rw [List.take_succ_cons, List.mem_cons] at hd
      rcases hd with hd | hd
      · exact hd ▸ h.1
      · exact hj2 d hd

theorem gmatch_no_slash {pat : List Char} (hpat : ∀ c ∈ pat, c ≠ '/') :
    ∀ {cs : List Char}, gmatch pat cs = true → ∀ c ∈ cs, c ≠ '/' := by
  induction pat with
  | nil =>
    intro cs h
    cases cs with
    | nil => simp
    | cons c cs => rw [gmatch] at h; simp at h
  | cons p ps ih =>
    intro cs h c hc
    have hps : ∀ c ∈ ps, c ≠ '/' := fun d hd => hpat d (by simp [hd])
    cases cs with
    | nil => simp at hc
    | cons c' cs' =>
      rw [gmatch] at h
      split at h
      · obtain ⟨j, _, hj2, hj3⟩ := gstar_elim h
        rcases List.mem_append.1 ((List.take_append_drop j (c' :: cs')) ▸ hc) with hm | hm
        · exact hj2 c hm
        · exact ih hps hj3 c hm
      · rw [Bool.and_eq_true, decide_eq_true_eq] at h
        rcases List.mem_cons.1 hc with hm | hm
        · exact hm ▸ h.1 ▸ hpat p (by simp)
        · exact ih hps h.2 c hm

theorem gmatch_append_lit {lit : List Char} (hlit : ∀ c ∈ lit, c ≠ '*')
    (pat cs : List Char) :
    gmatch (lit ++ pat) (lit ++ cs) = gmatch pat cs := by
  induction lit with
  | nil => simp
  | cons l ls ih =>
    have hl : l ≠ '*' := hlit l (by simp)
    simp only [List.cons_append, gmatch, hl, if_false, decide_eq_true_eq]
    simp [ih (fun c hc => hlit c (by simp [hc]))]

theorem gmatch_cons_ne {p c : Char} {ps cs : List Char} (hp : p ≠ '*') (hc : p ≠ c) :
    gmatch (p :: ps) (c :: cs) = false := by
  simp [gmatch, hp, hc]

/-! ## Lemmas: path helpers -/

theorem takeWhile_eq_self {p : Char → Bool} {l : List Char} (h : ∀ c ∈ l, p c = true) :
    l.takeWhile p = l := by
  induction l with
  | nil => rfl
  | cons c cs ih =>
    rw [List.takeWhile_cons, h c (by simp)]
    simp [ih (fun d hd => h d (by simp [hd]))]

theorem string_mk_data (s : String) : String.mk s.data = s := rfl

theorem fileName_of_no_slash {p : String} (h : ∀ c ∈ p.data, c ≠ '/') : fileName p = p := by
  unfold fileName
  have ht : p.data.reverse.takeWhile (fun c => decide (c ≠ '/')) = p.data.reverse :=
    takeWhile_eq_self (fun c hc => by simpa using h c (List.mem_reverse.1 hc))
  rw [ht, List.reverse_reverse]

theorem dropWhile_head_false {p : Char → Bool} {l : List Char} {x : Char} {xs : List Char}
    (h : l.dropWhile p = x :: xs) : p x = false := by
  induction l with
  | nil => simp at h
  | cons a as ih =>
    rw [List.dropWhile_cons] at h
    split at h
    · exact ih h
    · next hpa =>
        cases h
        simpa using hpa

theorem extSplit_eq_some {name s e : List Char} (h : extSplit name = some (s, e)) :
    name = s ++ '.' :: e ∧ s ≠ [] ∧ ∀ c ∈ e, c ≠ '.' := by
  unfold extSplit at h
  cases hd : name.reverse.dropWhile (fun c => decide (c ≠ '.')) with
  | nil => rw [hd] at h; simp at h
  | cons x xs =>
    cases xs with
    | nil => rw [hd] at h; simp at h
    | cons y ys =>
      rw [hd] at h
      simp only [Option.some.injEq, Prod.mk.injEq] at h
      have hx : x = '.' := by
        have := dropWhile_head_false hd
        simpa using this
      have hsplit :
          name.reverse.takeWhile (fun c => decide (c ≠ '.')) ++ (x :: y :: ys) = name.reverse := by
        rw [← hd]
        exact List.takeWhile_append_dropWhile _ _
      have hname :
          name = (y :: ys).reverse ++
            '.' :: (name.reverse.takeWhile (fun c => decide (c ≠ '.'))).reverse := by
        have h2 := congrArg List.reverse hsplit
        rw [List.reverse_reverse, List.reverse_append] at h2
        refine Eq.trans h2.symm ?_
        rw [hx]
        simp [List.append_assoc]
      refine ⟨?_, ?_, ?_⟩
      · rw [← h.1, ← h.2]
        exact hname
      · rw [← h.1]
        simp
      · intro c hc
        rw [← h.2, List.mem_reverse] at hc
        have := List.mem_takeWhile_imp hc
        simpa using this

theorem fileExt_decomp {n : String} (hs : ∀ c ∈ n.data, c ≠ '/') {e : String}
    (h : fileExt n = some e) :
    ∃ s : List Char, n.data = s ++ '.' :: e.data ∧ s ≠ [] ∧ ∀ c ∈ e.data, c ≠ '.' := by
  unfold fileExt at h
  rw [fileName_of_no_slash hs] at h
  cases hsplit : extSplit n.data with
  | none => rw [hsplit] at h; simp at h
  | some se =>
    rw [hsplit] at h
    simp only [Option.map_some', Option.some.injEq] at h
    obtain ⟨h1, h2, h3⟩ :=
      extSplit_eq_some (show extSplit n.data = some (se.1, se.2) by rw [hsplit])
    refine ⟨se.1, ?_, h2, ?_⟩
    · rw [← h]
      exact h1
    · rw [← h]
      exact h3

/-! ## Lemmas: which destination paths the tree-collection glob matches -/

theorem gmatch_star (ps cs : List Char) :
    gmatch ('*' :: ps) cs = gstar (gmatch ps) cs := by
  cases cs <;> simp [gmatch]

theorem globMatch_no_slash {pat n : String} (hpat : ∀ c ∈ pat.data, c ≠ '/')
    (h : globMatch pat n = true) : ∀ c ∈ n.data, c ≠ '/' :=
  gmatch_no_slash hpat h

/-- A slash-free file name with extension `treefile` matches `*.treefile`. -/
theorem star_treefile_of_ext {n : String} (hs : ∀ c ∈ n.data, c ≠ '/')
    (h : fileExt n = some "treefile") : gmatch ('*' :: ".treefile".data) n.data = true := by
  obtain ⟨s, hdec, -, -⟩ := fileExt_decomp hs h
  rw [gmatch_star, hdec]
  apply gstar_of_split s.length
  · intro c hc
    rw [List.take_left] at hc
    exact hs c (by rw [hdec]; exact List.mem_append_left _ hc)
  · rw [List.drop_left]
    decide

/-- The tree-output destination of a collected file: whether it matches the
aggregation glob reduces to matching the bare file name against
`*.treefile`. -/
theorem globMatch_tree_dest (file : String) :
    globMatch TREE_GLOB (GENE_TREE_DIR ++ "/" ++ file) =
      gmatch ('*' :: ".treefile".data) file.data := by
  have hpat : TREE_GLOB = "gene-treefiles/" ++ "*.treefile" := rfl
  have hname : GENE_TREE_DIR ++ "/" ++ file = "gene-treefiles/" ++ file := rfl
  rw [globMatch, hpat, hname, String.data_append, String.data_append]
  exact gmatch_append_lit (by decide) _ _

/-- The archive destination of a collected file never matches the
aggregation glob (it lives under `iqtree-genes/`, not `gene-treefiles/`). -/
theorem globMatch_arch_dest (pfx file : String) :
    globMatch TREE_GLOB (GENE_TREE_OUTPUT_DIR ++ "/" ++ pfx ++ "/" ++ file) = false := by
  have hname : GENE_TREE_OUTPUT_DIR ++ "/" ++ pfx ++ "/" ++ file =
      "iqtree-genes/" ++ (pfx ++ ("/" ++ file)) := by
    have : GENE_TREE_OUTPUT_DIR ++ "/" = "iqtree-genes/" := rfl
    rw [← this]
    simp [String.append_assoc]
  rw [globMatch, hname, String.data_append]
  have hpat : TREE_GLOB.data = 'g' :: "ene-treefiles/*.treefile".data := rfl
  have hdat : "iqtree-genes/".data ++ (pfx ++ ("/" ++ file)).data =
      'i' :: ("qtree-genes/".data ++ (pfx ++ ("/" ++ file)).data) := rfl
  rw [hpat, hdat]
  exact gmatch_cons_ne (by decide) (by decide)

/-- The aggregated `genes.treefiles` file itself does not match the
aggregation glob. -/
theorem globMatch_gene_tree_name : globMatch TREE_GLOB GENE_TREE_NAME = false := by
  decide

/-- Names matched by the per-job collection pattern `<pfx>.*` are slash-free
whenever the prefix is. -/
theorem no_slash_of_match_pfx {pfx n : String} (hp : ∀ c ∈ pfx.data, c ≠ '/')
    (h : globMatch (pfx ++ ".*") n = true) : ∀ c ∈ n.data, c ≠ '/' := by
  refine globMatch_no_slash ?_ h
  rw [String.data_append]
  intro c hc
  rcases List.mem_append.1 hc with hm | hm
  · exact hp c hm
  · have hm' : c = '.' ∨ c = '*' := by
      have hd : ".*".data = ['.', '*'] := rfl
      rw [hd] at hm
      simpa using hm
    rcases hm' with h | h <;> (subst h; decide)

/-! ## Lemmas: artifact collection (`organize_gene_files`) -/

/-- The destination the gene-stage Artifact Collector chooses for one
collected file (primary extension to the tree-output directory, everything
else to the prefix-named archive subdirectory). -/
def geneDest (pfx file : String) : String :=
  if fileExt file = some "treefile" then GENE_TREE_DIR ++ "/" ++ file
  else GENE_TREE_OUTPUT_DIR ++ "/" ++ pfx ++ "/" ++ file

theorem slash_mem_geneDest (pfx file : String) : '/' ∈ (geneDest pfx file).data := by
  unfold geneDest
  split
  · show '/' ∈ (("gene-treefiles" ++ "/") ++ file).data
    rw [String.data_append]
    exact List.mem_append_left _ (by decide)
  · show '/' ∈ ((("iqtree-genes" ++ "/") ++ pfx ++ "/") ++ file).data
    rw [String.data_append, String.data_append, String.data_append]
    exact List.mem_append_left _ (List.mem_append_left _ (List.mem_append_left _ (by decide)))

theorem geneDest_ne_slashfree {pfx file g : String} (hg : ∀ c ∈ g.data, c ≠ '/') :
    geneDest pfx file ≠ g := by
  intro h
  exact hg '/' (h ▸ slash_mem_geneDest pfx file) rfl

/-- Whether a destination matches the aggregation glob is decided by the
collected file's extension. -/
theorem globMatch_geneDest {pfx file : String} (hs : ∀ c ∈ file.data, c ≠ '/') :
    globMatch TREE_GLOB (geneDest pfx file) =
      (fileExt file == some "treefile") := by
  unfold geneDest
  by_cases h : fileExt file = some "treefile"
  · rw [if_pos h, globMatch_tree_dest, beq_iff_eq.mpr h]
    exact star_treefile_of_ext hs h
  · rw [if_neg h, globMatch_arch_dest]
    exact (beq_eq_false_iff_ne.mpr h).symm

theorem keys_filter_ne (l : List (String × String)) (n : String) :
    (l.filter (fun e => e.1 ≠ n)).map Prod.fst =
      (l.map Prod.fst).filter (fun k => k ≠ n) := by
  induction l with
  | nil => rfl
  | cons e es ih =>
    rw [List.map_cons, List.filter_cons, List.filter_cons]
    by_cases h : e.1 = n
    · rw [if_neg (by simp [h]), if_neg (by simp [h])]
      exact ih
    · rw [if_pos (by simp [h]), if_pos (by simp [h]), List.map_cons, ih]

theorem filter_pair_of_fresh {l : List (String × String)} {src dst : String}
    (h : dst ∉ l.map Prod.fst) :
    l.filter (fun e => e.1 ≠ src ∧ e.1 ≠ dst) = l.filter (fun e => e.1 ≠ src) := by
  apply List.filter_congr
  intro e he
  have : e.1 ≠ dst := fun hc => h (hc ▸ List.mem_map_of_mem Prod.fst he)
  simp [this]

/-- One step of the gene-stage collection fold is a rename to `geneDest`. -/
theorem organize_gene_step {pfx file : String} {f : FS} (h : (fileExt file).isSome) :
    (match fileExt file with
      | none => none
      | some ext =>
        if ext = "treefile" then f.rename file (GENE_TREE_DIR ++ "/" ++ file)
        else f.rename file (GENE_TREE_OUTPUT_DIR ++ "/" ++ pfx ++ "/" ++ file)) =
      f.rename file (geneDest pfx file) := by
  obtain ⟨e, he⟩ := Option.isSome_iff_exists.1 h
  rw [he]
  unfold geneDest
  rw [he]
  by_cases h1 : e = "treefile"
  · simp [h1]
  · simp [h1, Option.some.injEq]

/-- Characterization of the gene-stage collection fold: every collected file
is moved to its destination, everything else is untouched. -/
theorem move_fold_spec (pfx : String) :
    ∀ (files : List String) (fs : FS),
    fs.keys.Nodup →
    (∀ f ∈ files, f ∈ fs.keys) →
    (∀ f ∈ files, (fileExt f).isSome) →
    files.Nodup →
    (∀ f ∈ files, ∀ c ∈ f.data, c ≠ '/') →
    (∀ f ∈ files, geneDest pfx f ∉ fs.keys) →
    (files.map (geneDest pfx)).Nodup →
    ∃ fs',
      files.foldlM
        (fun f file =>
          match fileExt file with
          | none => none
          | some ext =>
            if ext = "treefile" then f.rename file (GENE_TREE_DIR ++ "/" ++ file)
            else f.rename file (GENE_TREE_OUTPUT_DIR ++ "/" ++ pfx ++ "/" ++ file))
        fs = some fs' ∧
      List.Perm fs'.files
        ((files.map (fun f => (geneDest pfx f, (fs.read f).getD ""))) ++
          fs.files.filter (fun e => e.1 ∉ files)) ∧
      fs'.dirs = fs.dirs := by
  intro files
  induction files with
  | nil =>
    intro fs _ _ _ _ _ _ _
    exact ⟨fs, rfl, by simp, rfl⟩
  | cons f0 rest ih =>
    intro fs hknd hsrc hext hnd hslash hdfresh hdnd
    obtain ⟨c0, hc0⟩ := lookup_isSome_of_mem_keys (hsrc f0 (by simp))
    have hren : fs.rename f0 (geneDest pfx f0) =
        some ⟨(geneDest pfx f0, c0) ::
          fs.files.filter (fun e => e.1 ≠ f0 ∧ e.1 ≠ geneDest pfx f0), fs.dirs⟩ :=
      FS.rename_eq_some hc0
    set d0 : String := geneDest pfx f0 with hd0
    set fs1 : FS :=
      ⟨(d0, c0) :: fs.files.filter (fun e => e.1 ≠ f0 ∧ e.1 ≠ d0), fs.dirs⟩ with hfs1
    have hfresh0 : d0 ∉ fs.keys := hdfresh f0 (by simp)
    have hfiles1 : fs1.files = (d0, c0) :: fs.files.filter (fun e => e.1 ≠ f0) := by
      rw [hfs1]
      simp only
      rw [filter_pair_of_fresh hfresh0]
    have hkeys1 : fs1.keys = d0 :: (fs.keys.filter (fun k => k ≠ f0)) := by
      rw [FS.keys, hfiles1, List.map_cons, keys_filter_ne]
      rfl
    have hknd1 : fs1.keys.Nodup := by
      rw [hkeys1]
      refine List.Nodup.cons ?_ (hknd.filter _)
      intro hmem
      exact hfresh0 (List.mem_of_mem_filter hmem)
    have hstep :
        (match fileExt f0 with
          | none => none
          | some ext =>
            if ext = "treefile" then fs.rename f0 (GENE_TREE_DIR ++ "/" ++ f0)
            else fs.rename f0 (GENE_TREE_OUTPUT_DIR ++ "/" ++ pfx ++ "/" ++ f0)) =
        some fs1 := by
      rw [organize_gene_step (hext f0 (by simp)), ← hd0, hren]
    have hslashr : ∀ f ∈ rest, ∀ c ∈ f.data, c ≠ '/' :=
      fun f hf => hslash f (by simp [hf])
    obtain ⟨fs2, hfold, hperm, hdirs⟩ := ih fs1 hknd1
      (by
        intro g hg
        rw [hkeys1]
        have hgf : g ≠ f0 := by
          intro hEq
          exact (List.nodup_cons.1 hnd).1 (hEq ▸ hg)
        exact List.mem_cons_of_mem _
          (List.mem_filter.2 ⟨hsrc g (by simp [hg]), by simpa using hgf⟩))
      (fun f hf => hext f (by simp [hf]))
      (List.nodup_cons.1 hnd).2
      hslashr
      (by
        intro g hg
        rw [hkeys1, List.mem_cons]
        push_neg
        constructor
        · intro hEq
          rw [hd0] at hEq
          have := List.nodup_cons.1 hdnd
          exact this.1 (hEq ▸ List.mem_map_of_mem (geneDest pfx) hg)
        · intro hmem
          exact hdfresh g (by simp [hg]) (List.mem_of_mem_filter hmem))
      (List.nodup_cons.1 hdnd).2
    refine ⟨fs2, ?_, ?_, by rw [hdirs, hfs1]⟩
    · rw [List.foldlM_cons, hstep]
      exact hfold
    · have hread1 : ∀ g ∈ rest, fs1.read g = fs.read g := by
        intro g hg
        refine FS.read_rename_other hren ?_ ?_
        · intro hEq
          exact (List.nodup_cons.1 hnd).1 (hEq ▸ hg)
        · intro hEq
          exact geneDest_ne_slashfree (hslashr g hg) (hd0 ▸ hEq.symm)
      have hmapeq :
          rest.map (fun f => (geneDest pfx f, (fs1.read f).getD "")) =
          rest.map (fun f => (geneDest pfx f, (fs.read f).getD "")) := by
        apply List.map_congr_left
        intro g hg
        rw [hread1 g hg]
      have hfilter1 :
          fs1.files.filter (fun e => e.1 ∉ rest) =
          (d0, c0) :: fs.files.filter (fun e => e.1 ∉ f0 :: rest) := by
        rw [hfiles1, List.filter_cons]
        have hd0r : d0 ∉ rest := by
          intro hmem
          exact geneDest_ne_slashfree (hslashr d0 hmem) hd0.symm
        rw [if_pos (by simpa using hd0r)]
        congr 1
        rw [List.filter_filter]
        apply List.filter_congr
        intro e _
        by_cases h1 : e.1 = f0
        · simp [h1]
        · by_cases h2 : e.1 ∈ rest <;> simp [h1, h2]
      have hp1 : List.Perm fs2.files
          (rest.map (fun f => (geneDest pfx f, (fs.read f).getD "")) ++
            ((d0, c0) :: fs.files.filter (fun e => e.1 ∉ f0 :: rest))) := by
        rw [← hmapeq, ← hfilter1]
        exact hperm
      have hp2 := hp1.trans List.perm_middle
      have hpair : (geneDest pfx f0, (fs.read f0).getD "") = (d0, c0) := by
        rw [← hd0]
        have hr0 : fs.read f0 = some c0 := hc0
        rw [hr0]
        rfl
      rw [List.map_cons, List.cons_append, hpair]
      exact hp2

/-- `organize_gene_files` in terms of the initial state: directory creation
leaves files alone, then the fold moves every collected file. -/
theorem organize_gene_files_spec {fs : FS} {files : List String} {pfx : String}
    (hknd : fs.keys.Nodup)
    (hsrc : ∀ f ∈ files, f ∈ fs.keys)
    (hext : ∀ f ∈ files, (fileExt f).isSome)
    (hnd : files.Nodup)
    (hslash : ∀ f ∈ files, ∀ c ∈ f.data, c ≠ '/')
    (hdfresh : ∀ f ∈ files, geneDest pfx f ∉ fs.keys)
    (hdnd : (files.map (geneDest pfx)).Nodup) :
    ∃ fs', organize_gene_files fs files pfx = some fs' ∧
      List.Perm fs'.files
        ((files.map (fun f => (geneDest pfx f, (fs.read f).getD ""))) ++
          fs.files.filter (fun e => e.1 ∉ files)) := by
  have hfd : ((fs.createDirAll GENE_TREE_OUTPUT_DIR).createDirAll
      (GENE_TREE_OUTPUT_DIR ++ "/" ++ pfx)).files = fs.files := by
    rw [FS.createDirAll_files, FS.createDirAll_files]
  have hkd : ((fs.createDirAll GENE_TREE_OUTPUT_DIR).createDirAll
      (GENE_TREE_OUTPUT_DIR ++ "/" ++ pfx)).keys = fs.keys := by
    rw [FS.keys, hfd]
    rfl
  have hrd : ∀ n, ((fs.createDirAll GENE_TREE_OUTPUT_DIR).createDirAll
      (GENE_TREE_OUTPUT_DIR ++ "/" ++ pfx)).read n = fs.read n := by
    intro n
    rw [FS.read, hfd]
    rfl
  obtain ⟨fs', hfold, hperm, -⟩ := move_fold_spec pfx files
    ((fs.createDirAll GENE_TREE_OUTPUT_DIR).createDirAll (GENE_TREE_OUTPUT_DIR ++ "/" ++ pfx))
    (hkd ▸ hknd) (fun f hf => hkd ▸ hsrc f hf) hext hnd hslash
    (fun f hf => hkd ▸ hdfresh f hf) hdnd
  refine ⟨fs', hfold, ?_⟩
  have hmapeq : files.map (fun f => (geneDest pfx f,
      (((fs.createDirAll GENE_TREE_OUTPUT_DIR).createDirAll
        (GENE_TREE_OUTPUT_DIR ++ "/" ++ pfx)).read f).getD "")) =
      files.map (fun f => (geneDest pfx f, (fs.read f).getD "")) := by
    apply List.map_congr_left
    intro g _
    rw [hrd g]
  rw [← hmapeq, ← hfd]
  exact hperm

/-! ## Lemmas: subprocess file creation (`estimate_gene_tree` prelude) -/

theorem createMany_spec {l : List (String × String)} :
    ∀ {fs : FS}, (l.map Prod.fst).Nodup → (∀ k ∈ l.map Prod.fst, k ∉ fs.keys) →
    (l.foldl (fun f nc => f.create nc.1 nc.2) fs).files = l.reverse ++ fs.files ∧
      (l.foldl (fun f nc => f.create nc.1 nc.2) fs).dirs = fs.dirs := by
  induction l with
  | nil => intro fs _ _; exact ⟨rfl, rfl⟩
  | cons nc rest ih =>
    intro fs hnd hfresh
    have hfr : nc.1 ∉ fs.keys := hfresh nc.1 (by simp)
    have hcre : (fs.create nc.1 nc.2).files = (nc.1, nc.2) :: fs.files :=
      FS.create_files_of_fresh hfr
    have hkeys : (fs.create nc.1 nc.2).keys = nc.1 :: fs.keys := by
      rw [FS.keys, hcre]
      rfl
    have hd : (fs.create nc.1 nc.2).dirs = fs.dirs := rfl
    rw [List.foldl_cons]
    obtain ⟨h1, h2⟩ := @ih (fs.create nc.1 nc.2)
      (List.nodup_cons.1 (by simpa using hnd)).2
      (by
        intro k hk
        rw [hkeys, List.mem_cons]
        push_neg
        constructor
        · intro hEq
          exact (List.nodup_cons.1 (by simpa using hnd)).1 (hEq ▸ hk)
        · exact hfresh k (by simp [hk]))
    refine ⟨?_, by rw [h2, hd]⟩
    rw [h1, hcre]
    simp

/-! ## Lemmas: exit-status checking -/

/-- The log entry `check_process_success` emits for a failed job. -/
def failLog (out : Output) (path : String) : LogEvent :=
  ⟨path, (decodeStr out.stdout).getD "", (decodeStr out.stderr).getD ""⟩

/-- The events one job contributes to the failure log (none on success). -/
def evOf (out : Output) (path : String) : List LogEvent :=
  if out.success then [] else [failLog out path]

theorem check_process_success_of_valid {out : Output} {path : String}
    (h : out.success = false →
      (utf8DecodeCps out.stdout).isSome ∧ (utf8DecodeCps out.stderr).isSome) :
    check_process_success out path = some (evOf out path) := by
  unfold check_process_success evOf
  by_cases hs : out.success
  · simp [hs]
  · have hb : out.success = false := by simpa using hs
    have hv := h hb
    obtain ⟨o, ho⟩ := Option.isSome_iff_exists.1 hv.1
    obtain ⟨e, he⟩ := Option.isSome_iff_exists.1 hv.2
    have ho' : decodeStr out.stdout = some (String.mk (o.map Char.ofNat)) := by
      rw [decodeStr, ho]
      rfl
    have he' : decodeStr out.stderr = some (String.mk (e.map Char.ofNat)) := by
      rw [decodeStr, he]
      rfl
    rw [if_neg hs, ho', he', if_neg hs]
    rw [failLog, ho', he']
    rfl

/-! ## Lemmas: one gene-tree job end to end -/

theorem estimate_gene_tree_spec (oracle : Oracle) {fs : FS} {p s : String}
    (hstem : fileStem p = some s)
    (hsl : ∀ c ∈ s.data, c ≠ '/')
    (hmatch : ∀ f ∈ (oracle p).produced.map Prod.fst, globMatch (s ++ ".*") f = true)
    (hext : ∀ f ∈ (oracle p).produced.map Prod.fst, (fileExt f).isSome)
    (hpnd : ((oracle p).produced.map Prod.fst).Nodup)
    (hknd : fs.keys.Nodup)
    (hclean : ∀ k ∈ fs.keys, globMatch (s ++ ".*") k = false)
    (hdfresh : ∀ f ∈ (oracle p).produced.map Prod.fst, geneDest s f ∉ fs.keys)
    (hdnd : (((oracle p).produced.map Prod.fst).map (geneDest s)).Nodup)
    (hutf : (oracle p).out.success = false →
      (utf8DecodeCps (oracle p).out.stdout).isSome ∧
        (utf8DecodeCps (oracle p).out.stderr).isSome) :
    ∃ fs', estimate_gene_tree oracle fs p = some (fs', evOf (oracle p).out p) ∧
      List.Perm fs'.files
        (((oracle p).produced.map (fun nc => (geneDest s nc.1, nc.2))) ++ fs.files) ∧
      fs'.keys.Nodup ∧
      List.Perm fs'.keys
        ((((oracle p).produced.map Prod.fst).map (geneDest s)) ++ fs.keys) := by
  have hfresh : ∀ k ∈ (oracle p).produced.map Prod.fst, k ∉ fs.keys := by
    intro k hk hmem
    have hc := hclean k hmem
    rw [hmatch k hk] at hc
    exact Bool.true_eq_false.mp hc
  obtain ⟨hcm1, hcm2⟩ := @createMany_spec _ fs hpnd hfresh
  have hkeys1 : ((oracle p).produced.foldl (fun f nc => f.create nc.1 nc.2) fs).keys =
      ((oracle p).produced.map Prod.fst).reverse ++ fs.keys := by
    rw [FS.keys, hcm1, List.map_append, List.map_reverse]
    rfl
  have hknd1 : ((oracle p).produced.foldl (fun f nc => f.create nc.1 nc.2) fs).keys.Nodup := by
    rw [hkeys1]
    refine List.Nodup.append (by simpa using hpnd) hknd ?_
    intro k hk1 hk2
    exact hfresh k (List.mem_reverse.1 hk1) hk2
  have hfilter : ((oracle p).produced.foldl (fun f nc => f.create nc.1 nc.2) fs).keys.filter
      (globMatch (s ++ ".*")) = ((oracle p).produced.map Prod.fst).reverse := by
    rw [hkeys1, List.filter_append]
    have h1 : ((oracle p).produced.map Prod.fst).reverse.filter (globMatch (s ++ ".*")) =
        ((oracle p).produced.map Prod.fst).reverse :=
      List.filter_eq_self.2 (fun k hk => hmatch k (List.mem_reverse.1 hk))
    have h2 : fs.keys.filter (globMatch (s ++ ".*")) = [] :=
      List.filter_eq_nil_iff.2 (fun k hk => by rw [hclean k hk]; simp)
    rw [h1, h2, List.append_nil]
  have hsig : List.Perm
      (globFS ((oracle p).produced.foldl (fun f nc => f.create nc.1 nc.2) fs) (s ++ ".*"))
      ((oracle p).produced.map Prod.fst) := by
    refine (sortStrings_perm _).trans ?_
    rw [hfilter]
    exact List.reverse_perm _
  have hsigmem : ∀ f, f ∈ globFS ((oracle p).produced.foldl (fun f nc => f.create nc.1 nc.2) fs)
      (s ++ ".*") ↔ f ∈ (oracle p).produced.map Prod.fst := fun f => hsig.mem_iff
  obtain ⟨fs2, horg, hperm2⟩ := @organize_gene_files_spec
    ((oracle p).produced.foldl (fun f nc => f.create nc.1 nc.2) fs)
    (globFS ((oracle p).produced.foldl (fun f nc => f.create nc.1 nc.2) fs) (s ++ ".*"))
    s
    hknd1
    (fun f hf => (mem_globFS.1 hf).1)
    (fun f hf => hext f ((hsigmem f).1 hf))
    (hsig.nodup_iff.2 hpnd)
    (fun f hf => no_slash_of_match_pfx hsl (mem_globFS.1 hf).2)
    (by
      intro f hf
      rw [hkeys1, List.mem_append]
      push_neg
      constructor
      · intro hmem
        exact geneDest_ne_slashfree
          (no_slash_of_match_pfx hsl (hmatch _ (List.mem_reverse.1 hmem))) rfl
      · exact hdfresh f ((hsigmem f).1 hf))
    ((hsig.map (geneDest s)).nodup_iff.2 hdnd)
  have hread1 : ∀ nc ∈ (oracle p).produced,
      ((oracle p).produced.foldl (fun f nc => f.create nc.1 nc.2) fs).read nc.1 = some nc.2 := by
    intro nc hnc
    apply lookup_eq_some_of_mem hknd1
    rw [hcm1]
    exact List.mem_append_left _ (List.mem_reverse.2 hnc)
  have hfiltereq :
      ((oracle p).produced.foldl (fun f nc => f.create nc.1 nc.2) fs).files.filter
        (fun e => e.1 ∉ globFS ((oracle p).produced.foldl (fun f nc => f.create nc.1 nc.2) fs)
          (s ++ ".*")) = fs.files := by
    rw [hcm1, List.filter_append]
    have h1 : (oracle p).produced.reverse.filter
        (fun e => e.1 ∉ globFS ((oracle p).produced.foldl (fun f nc => f.create nc.1 nc.2) fs)
          (s ++ ".*")) = [] := by
      apply List.filter_eq_nil_iff.2
      intro e he
      have : e.1 ∈ (oracle p).produced.map Prod.fst :=
        List.mem_map_of_mem Prod.fst (List.mem_reverse.1 he)
      simp [(hsigmem e.1).2 this]
    have h2 : fs.files.filter
        (fun e => e.1 ∉ globFS ((oracle p).produced.foldl (fun f nc => f.create nc.1 nc.2) fs)
          (s ++ ".*")) = fs.files := by
      apply List.filter_eq_self.2
      intro e he
      have hne : e.1 ∉ (oracle p).produced.map Prod.fst := by
        intro hmem
        exact hfresh e.1 hmem (List.mem_map_of_mem Prod.fst he)
      simpa using fun hc => hne ((hsigmem e.1).1 hc)
    rw [h1, h2, List.nil_append]
  have hpairmap : List.Perm
      ((globFS ((oracle p).produced.foldl (fun f nc => f.create nc.1 nc.2) fs) (s ++ ".*")).map
        (fun f => (geneDest s f,
          (((oracle p).produced.foldl (fun f nc => f.create nc.1 nc.2) fs).read f).getD "")))
      ((oracle p).produced.map (fun nc => (geneDest s nc.1, nc.2))) := by
    refine (hsig.map _).trans ?_
    rw [List.map_map]
    have hEq : ((oracle p).produced.map
        ((fun f => (geneDest s f,
          (((oracle p).produced.foldl (fun f nc => f.create nc.1 nc.2) fs).read f).getD "")) ∘
          Prod.fst)) =
        (oracle p).produced.map (fun nc => (geneDest s nc.1, nc.2)) := by
      apply List.map_congr_left
      intro nc hnc
      simp only [Function.comp]
      rw [hread1 nc hnc]
      rfl
    rw [hEq]
  have hfinal : List.Perm fs2.files
      (((oracle p).produced.map (fun nc => (geneDest s nc.1, nc.2))) ++ fs.files) := by
    rw [hfiltereq] at hperm2
    exact hperm2.trans (List.Perm.append hpairmap (List.Perm.refl _))
  have hk : List.Perm fs2.keys
      ((((oracle p).produced.map Prod.fst).map (geneDest s)) ++ fs.keys) := by
    have hk0 := hfinal.map Prod.fst
    rw [List.map_append, List.map_map] at hk0
    have hfun : (Prod.fst ∘ fun nc : String × String => (geneDest s nc.1, nc.2)) =
        (geneDest s ∘ Prod.fst) := by
      funext nc
      rfl
    rw [hfun, ← List.map_map] at hk0
    exact hk0
  refine ⟨fs2, ?_, hfinal, ?_, hk⟩
  · show estimate_gene_tree oracle fs p = some (fs2, evOf (oracle p).out p)
    unfold estimate_gene_tree
    rw [hstem]
    simp only [Option.bind_eq_bind, Option.some_bind]
    rw [check_process_success_of_valid hutf]
    simp only [Option.some_bind]
    unfold get_iqtree_files
    rw [horg]
    rfl
  · refine hk.nodup_iff.2 ?_
    refine List.Nodup.append hdnd hknd ?_
    intro k hk1 hk2
    obtain ⟨f, hf, hfe⟩ := List.mem_map.1 hk1
    exact hdfresh f hf (hfe ▸ hk2)

/-! ## Lemmas: the whole dispatched batch -/

/-- The job prefix of an alignment path (total version of `file_stem`). -/
def stemOf (p : String) : String := (fileStem p).getD ""

/-- The relocated artifacts of one job, as (destination, content) pairs. -/
def jobPairs (oracle : Oracle) (p : String) : List (String × String) :=
  (oracle p).produced.map (fun nc => (geneDest (stemOf p) nc.1, nc.2))

/-- The relocated artifacts of a whole batch, in job order. -/
def movedPairs (oracle : Oracle) (paths : List String) : List (String × String) :=
  (paths.map (jobPairs oracle)).flatten

/-- The failure log the batch accumulates, in job order. -/
def batchLogs (oracle : Oracle) (paths : List String) : List LogEvent :=
  (paths.filter (fun p => !(oracle p).out.success)).map (fun p => failLog (oracle p).out p)

theorem movedPairs_cons (oracle : Oracle) (p : String) (rest : List String) :
    movedPairs oracle (p :: rest) = jobPairs oracle p ++ movedPairs oracle rest := by
  rw [movedPairs, List.map_cons, List.flatten_cons]
  rfl

theorem batchLogs_cons (oracle : Oracle) (p : String) (rest : List String) :
    batchLogs oracle (p :: rest) = evOf (oracle p).out p ++ batchLogs oracle rest := by
  rw [batchLogs, List.filter_cons, evOf]
  by_cases hs : (oracle p).out.success
  · rw [if_neg (by simp [hs]), if_pos hs]
    rfl
  · rw [if_pos (by simp [hs]), if_neg hs, List.map_cons]
    rfl

theorem opt_getD_eq_some {o : Option String} (h : o.isSome) : o = some (o.getD "") := by
  cases o with
  | none => simp at h
  | some v => rfl

theorem jobPairs_keys (oracle : Oracle) (p : String) :
    (jobPairs oracle p).map Prod.fst =
      ((oracle p).produced.map Prod.fst).map (geneDest (stemOf p)) := by
  rw [jobPairs, List.map_map, List.map_map]
  apply List.map_congr_left
  intro nc _
  rfl

theorem par_fold_spec (oracle : Oracle) :
    ∀ (paths : List String) (fs : FS) (logs0 : List LogEvent) (jobs0 : List String),
    (∀ p ∈ paths, (fileStem p).isSome) →
    (∀ p ∈ paths, ∀ c ∈ (stemOf p).data, c ≠ '/') →
    (∀ p ∈ paths, ∀ f ∈ (oracle p).produced.map Prod.fst,
      globMatch (stemOf p ++ ".*") f = true ∧ (fileExt f).isSome) →
    (∀ p ∈ paths, ((oracle p).produced.map Prod.fst).Nodup) →
    (∀ p ∈ paths, ∀ k ∈ fs.keys, globMatch (stemOf p ++ ".*") k = false) →
    ((movedPairs oracle paths).map Prod.fst).Nodup →
    (∀ k ∈ (movedPairs oracle paths).map Prod.fst, k ∉ fs.keys) →
    fs.keys.Nodup →
    (∀ p ∈ paths, (oracle p).out.success = false →
      (utf8DecodeCps (oracle p).out.stdout).isSome ∧
        (utf8DecodeCps (oracle p).out.stderr).isSome) →
    ∃ fs',
      paths.foldlM
        (fun st p =>
          (estimate_gene_tree oracle st.1 p).bind
            (fun r => some (r.1, st.2.1 ++ r.2, st.2.2 ++ [p])))
        ((fs, logs0, jobs0) : FS × List LogEvent × List String) =
        some (fs', logs0 ++ batchLogs oracle paths, jobs0 ++ paths) ∧
      List.Perm fs'.files (movedPairs oracle paths ++ fs.files) ∧
      fs'.keys.Nodup := by
  intro paths
  induction paths with
  | nil =>
    intro fs logs0 jobs0 _ _ _ _ _ _ _ hknd _
    exact ⟨fs, by simp [batchLogs], by simp [movedPairs], hknd⟩
  | cons p0 rest ih =>
    intro fs logs0 jobs0 h1 h2 h3 h4 h6 h7 h8 hknd h9
    have hmk : (movedPairs oracle (p0 :: rest)).map Prod.fst =
        (jobPairs oracle p0).map Prod.fst ++ (movedPairs oracle rest).map Prod.fst := by
      rw [movedPairs_cons, List.map_append]
    rw [hmk] at h7 h8
    have hnd7 := List.nodup_append.1 h7
    obtain ⟨fs1, hest, hperm1, hknd1, hkeys1⟩ := @estimate_gene_tree_spec oracle
      fs p0 (stemOf p0)
      (by rw [stemOf]; exact opt_getD_eq_some (h1 p0 (by simp)))
      (h2 p0 (by simp))
      (fun f hf => (h3 p0 (by simp) f hf).1)
      (fun f hf => (h3 p0 (by simp) f hf).2)
      (h4 p0 (by simp))
      hknd
      (h6 p0 (by simp))
      (by
        intro f hf
        apply h8
        rw [jobPairs_keys]
        exact List.mem_append_left _ (List.mem_map_of_mem (geneDest (stemOf p0)) hf))
      (by
        have := hnd7.1
        rw [jobPairs_keys] at this
        exact this)
      (h9 p0 (by simp))
    have hjp : List.Perm fs1.files (jobPairs oracle p0 ++ fs.files) := by
      rw [jobPairs]
      exact hperm1
    have hjk : List.Perm fs1.keys ((jobPairs oracle p0).map Prod.fst ++ fs.keys) := by
      rw [jobPairs_keys]
      exact hkeys1
    obtain ⟨fs2, hfold, hperm2, hknd2⟩ := ih fs1 (logs0 ++ evOf (oracle p0).out p0)
      (jobs0 ++ [p0])
      (fun q hq => h1 q (by simp [hq]))
      (fun q hq => h2 q (by simp [hq]))
      (fun q hq => h3 q (by simp [hq]))
      (fun q hq => h4 q (by simp [hq]))
      (by
        intro q hq k hk
        rcases (List.mem_append.1 (hjk.mem_iff.1 hk)) with hm | hm
        · by_contra hcon
          rw [Bool.not_eq_false] at hcon
          have hksl := no_slash_of_match_pfx (h2 q (by simp [hq])) hcon
          rw [jobPairs_keys] at hm
          obtain ⟨f, -, hfe⟩ := List.mem_map.1 hm
          exact hksl '/' (hfe ▸ slash_mem_geneDest (stemOf p0) f) rfl
        · exact h6 q (by simp [hq]) k hm)
      hnd7.2.1
      (by
        intro k hk
        rw [hjk.mem_iff, List.mem_append]
        push_neg
        exact ⟨fun hm => hnd7.2.2 hm hk, h8 k (List.mem_append_right _ hk)⟩)
      hknd1
      (fun q hq => h9 q (by simp [hq]))
    refine ⟨fs2, ?_, ?_, hknd2⟩
    · simp only [List.foldlM_cons]
      rw [hest]
      simp only [Option.bind_eq_bind, Option.some_bind]
      rw [hfold, batchLogs_cons]
      simp [List.append_assoc]
    · refine hperm2.trans ?_
      rw [movedPairs_cons, List.append_assoc]
      refine (List.Perm.append (List.Perm.refl (movedPairs oracle rest)) hjp).trans ?_
      rw [← List.append_assoc, ← List.append_assoc]
      exact List.Perm.append (List.perm_append_comm) (List.Perm.refl fs.files)

/-! ## Lemmas: aggregation (`combine_gene_trees`) -/

theorem mapM_eq_map {l : List String} {f : String → Option String} {g : String → String}
    (h : ∀ x ∈ l, f x = some (g x)) : l.mapM f = some (l.map g) := by
  induction l with
  | nil => rfl
  | cons a as ih =>
    rw [List.mapM_cons, h a (by simp), ih (fun x hx => h x (by simp [hx]))]
    rfl

/-- The per-tree trimmed record `combine_gene_trees` writes for a primary
file currently on disk. -/
def recOf (fs : FS) (t : String) : String := trimStr ((fs.read t).getD "")

/-- Aggregation never fails and writes exactly one trimmed record per file
matched by `gene-treefiles/*.treefile`, in the glob's (alphabetical)
order. -/
theorem combine_spec (fs : FS) :
    combine_gene_trees fs =
      some ((fs.create GENE_TREE_NAME "").create GENE_TREE_NAME
          (String.join (((globFS fs TREE_GLOB).map (recOf fs)).map (fun r => r ++ "\n"))),
        (globFS fs TREE_GLOB).map (recOf fs)) := by
  have hread : ∀ t ∈ globFS fs TREE_GLOB,
      (fs.create GENE_TREE_NAME "").read t = some ((fs.read t).getD "") := by
    intro t ht
    obtain ⟨htk, htm⟩ := mem_globFS.1 ht
    have htne : t ≠ GENE_TREE_NAME := by
      intro hEq
      rw [hEq, globMatch_gene_tree_name] at htm
      exact absurd htm (by simp)
    rw [FS.read_create_ne htne]
    obtain ⟨c, hc⟩ := lookup_isSome_of_mem_keys htk
    have hc' : fs.read t = some c := hc
    rw [hc']
    rfl
  unfold combine_gene_trees
  rw [mapM_eq_map hread]
  have hmm : ((globFS fs TREE_GLOB).map (fun t => (fs.read t).getD "")).map trimStr =
      (globFS fs TREE_GLOB).map (recOf fs) := by
    rw [List.map_map]
    apply List.map_congr_left
    intro t _
    rfl
  simp only [hmm]

/-- Truncating/re-creating `genes.treefiles` does not change which files the
aggregation glob matches. -/
theorem globFS_create_GT (fs : FS) (c : String) :
    globFS (fs.create GENE_TREE_NAME c) TREE_GLOB = globFS fs TREE_GLOB := by
  unfold globFS
  congr 1
  rw [FS.keys, FS.create]
  simp only [List.map_cons]
  rw [List.filter_cons, if_neg (by simp [globMatch_gene_tree_name])]
  rw [keys_filter_ne, List.filter_filter]
  apply List.filter_congr
  intro k _
  by_cases hk : k = GENE_TREE_NAME
  · simp [hk, globMatch_gene_tree_name]
  · simp [hk]

/-! ## The whole Gene-Tree Batch Stage run, under a clean working directory -/

theorem build_gene_trees_spec (oracle : Oracle) (dir : String) (fmt : InputFmt) (fs : FS)
    (h1 : ∀ p ∈ globFS fs (getPattern dir fmt), (fileStem p).isSome)
    (h2 : ∀ p ∈ globFS fs (getPattern dir fmt), ∀ c ∈ (stemOf p).data, c ≠ '/')
    (h3 : ∀ p ∈ globFS fs (getPattern dir fmt), ∀ f ∈ (oracle p).produced.map Prod.fst,
      globMatch (stemOf p ++ ".*") f = true ∧ (fileExt f).isSome)
    (h4 : ∀ p ∈ globFS fs (getPattern dir fmt), ((oracle p).produced.map Prod.fst).Nodup)
    (h6 : ∀ p ∈ globFS fs (getPattern dir fmt), ∀ k ∈ fs.keys,
      globMatch (stemOf p ++ ".*") k = false)
    (h7 : ((movedPairs oracle (globFS fs (getPattern dir fmt))).map Prod.fst).Nodup)
    (h8 : ∀ k ∈ (movedPairs oracle (globFS fs (getPattern dir fmt))).map Prod.fst,
      k ∉ fs.keys)
    (h9 : fs.keys.Nodup)
    (h10 : ∀ p ∈ globFS fs (getPattern dir fmt), (oracle p).out.success = false →
      (utf8DecodeCps (oracle p).out.stdout).isSome ∧
        (utf8DecodeCps (oracle p).out.stderr).isSome)
    (h11 : 2 ≤ (globFS fs (getPattern dir fmt)).length) :
    ∃ fsB,
      build_gene_trees oracle dir fmt fs =
        .ok ((fsB.create GENE_TREE_NAME "").create GENE_TREE_NAME
            (String.join (((globFS fsB TREE_GLOB).map (recOf fsB)).map (fun r => r ++ "\n"))))
          (batchLogs oracle (globFS fs (getPattern dir fmt)))
          (globFS fs (getPattern dir fmt))
          ((globFS fsB TREE_GLOB).map (recOf fsB)) ∧
      List.Perm fsB.files
        (movedPairs oracle (globFS fs (getPattern dir fmt)) ++ fs.files) ∧
      fsB.keys.Nodup := by
  have hfd : (fs.createDirAll GENE_TREE_DIR).files = fs.files := FS.createDirAll_files fs _
  have hkd : (fs.createDirAll GENE_TREE_DIR).keys = fs.keys := by
    rw [FS.keys, hfd]
    rfl
  obtain ⟨fsB, hfold, hperm, hknd⟩ := par_fold_spec oracle
    (globFS fs (getPattern dir fmt)) (fs.createDirAll GENE_TREE_DIR) [] []
    h1 h2 h3 h4 (by rw [hkd]; exact h6) h7 (by rw [hkd]; exact h8) (by rw [hkd]; exact h9) h10
  refine ⟨fsB, ?_, by rw [← hfd]; exact hperm, hknd⟩
  unfold build_gene_trees
  rw [if_neg (by omega)]
  unfold par_process_gene_trees
  rw [hfold]
  simp only [List.nil_append]
  rw [combine_spec fsB]

/-! ## Lemmas: UTF-8 decode/encode round trip -/

theorem utf8Encode_cons (c : Nat) (l : List Nat) :
    utf8Encode (c :: l) = utf8EncodeCp c ++ utf8Encode l := by
  simp [utf8Encode]

theorem isCont_bounds {b : Nat} (h : isCont b = true) : 0x80 ≤ b ∧ b < 0xC0 := by
  simpa [isCont] using h

theorem okE_bounds {b0 b1 : Nat} (h : okE b0 b1 = true) :
    0x80 ≤ b1 ∧ b1 < 0xC0 ∧ (b0 = 0xE0 → 0xA0 ≤ b1) := by
  unfold okE at h
  by_cases he : b0 = 0xE0
  · rw [if_pos he] at h
    simp only [decide_eq_true_eq] at h
    exact ⟨by omega, h.2, fun _ => h.1⟩
  · rw [if_neg he] at h
    by_cases hd : b0 = 0xED
    · rw [if_pos hd] at h
      simp only [decide_eq_true_eq] at h
      exact ⟨h.1, by omega, fun hc => absurd hc he⟩
    · rw [if_neg hd] at h
      obtain ⟨h1, h2⟩ := isCont_bounds h
      exact ⟨h1, h2, fun hc => absurd hc he⟩

theorem okF_bounds {b0 b1 : Nat} (h : okF b0 b1 = true) :
    0x80 ≤ b1 ∧ b1 < 0xC0 ∧ (b0 = 0xF0 → 0x90 ≤ b1) := by
  unfold okF at h
  by_cases he : b0 = 0xF0
  · rw [if_pos he] at h
    simp only [decide_eq_true_eq] at h
    exact ⟨by omega, h.2, fun _ => h.1⟩
  · rw [if_neg he] at h
    by_cases hd : b0 = 0xF4
    · rw [if_pos hd] at h
      simp only [decide_eq_true_eq] at h
      exact ⟨h.1, by omega, fun hc => absurd hc he⟩
    · rw [if_neg hd] at h
      obtain ⟨h1, h2⟩ := isCont_bounds h
      exact ⟨h1, h2, fun hc => absurd hc he⟩

theorem encodeCp_one {b0 : Nat} (h : b0 < 0x80) : utf8EncodeCp b0 = [b0] := by
  rw [utf8EncodeCp, if_pos h]

theorem encodeCp_two {b0 b1 : Nat} (h0 : 0xC2 ≤ b0) (h0' : b0 < 0xE0)
    (h1 : isCont b1 = true) :
    utf8EncodeCp ((b0 - 0xC0) * 64 + (b1 - 0x80)) = [b0, b1] := by
  obtain ⟨ha, hb⟩ := isCont_bounds h1
  rw [utf8EncodeCp, if_neg (by omega), if_pos (by omega)]
  have e1 : 0xC0 + ((b0 - 0xC0) * 64 + (b1 - 0x80)) / 64 = b0 := by omega
  have e2 : 0x80 + ((b0 - 0xC0) * 64 + (b1 - 0x80)) % 64 = b1 := by omega
  rw [e1, e2]

theorem encodeCp_three {b0 b1 b2 : Nat} (h0 : 0xE0 ≤ b0) (h0' : b0 < 0xF0)
    (h1 : okE b0 b1 = true) (h2 : isCont b2 = true) :
    utf8EncodeCp ((b0 - 0xE0) * 4096 + (b1 - 0x80) * 64 + (b2 - 0x80)) = [b0, b1, b2] := by
  obtain ⟨ha, hb, hc⟩ := okE_bounds h1
  obtain ⟨hd, he⟩ := isCont_bounds h2
  have hcp : 0x800 ≤ (b0 - 0xE0) * 4096 + (b1 - 0x80) * 64 + (b2 - 0x80) := by
    by_cases h : b0 = 0xE0
    · have := hc h
      omega
    · omega
  rw [utf8EncodeCp, if_neg (by omega), if_neg (by omega), if_pos (by omega)]
  have e1 : 0xE0 + ((b0 - 0xE0) * 4096 + (b1 - 0x80) * 64 + (b2 - 0x80)) / 4096 = b0 := by
    omega
  have e2 : 0x80 + ((b0 - 0xE0) * 4096 + (b1 - 0x80) * 64 + (b2 - 0x80)) / 64 % 64 = b1 := by
    omega
  have e3 : 0x80 + ((b0 - 0xE0) * 4096 + (b1 - 0x80) * 64 + (b2 - 0x80)) % 64 = b2 := by
    omega
  rw [e1, e2, e3]

theorem encodeCp_four {b0 b1 b2 b3 : Nat} (h0 : 0xF0 ≤ b0) (h0' : b0 < 0xF5)
    (h1 : okF b0 b1 = true) (h2 : isCont b2 = true) (h3 : isCont b3 = true) :
    utf8EncodeCp ((b0 - 0xF0) * 262144 + (b1 - 0x80) * 4096 + (b2 - 0x80) * 64 + (b3 - 0x80)) =
      [b0, b1, b2, b3] := by
  obtain ⟨ha, hb, hc⟩ := okF_bounds h1
  obtain ⟨hd, he⟩ := isCont_bounds h2
  obtain ⟨hf, hg⟩ := isCont_bounds h3
  have hcp : 0x10000 ≤ (b0 - 0xF0) * 262144 + (b1 - 0x80) * 4096 +
      (b2 - 0x80) * 64 + (b3 - 0x80) := by
    by_cases h : b0 = 0xF0
    · have := hc h
      omega
    · omega
  rw [utf8EncodeCp, if_neg (by omega), if_neg (by omega), if_neg (by omega)]
  have e1 : 0xF0 + ((b0 - 0xF0) * 262144 + (b1 - 0x80) * 4096 + (b2 - 0x80) * 64 +
      (b3 - 0x80)) / 262144 = b0 := by omega
  have e2 : 0x80 + ((b0 - 0xF0) * 262144 + (b1 - 0x80) * 4096 + (b2 - 0x80) * 64 +
      (b3 - 0x80)) / 4096 % 64 = b1 := by omega
  have e3 : 0x80 + ((b0 - 0xF0) * 262144 + (b1 - 0x80) * 4096 + (b2 - 0x80) * 64 +
      (b3 - 0x80)) / 64 % 64 = b2 := by omega
  have e4 : 0x80 + ((b0 - 0xF0) * 262144 + (b1 - 0x80) * 4096 + (b2 - 0x80) * 64 +
      (b3 - 0x80)) % 64 = b3 := by omega
  rw [e1, e2, e3, e4]

theorem utf8_roundtrip_aux :
    ∀ (n : Nat) (bs : List Nat), bs.length ≤ n →
    ∀ cps, utf8DecodeCps bs = some cps → utf8Encode cps = bs := by
  intro n
  induction n with
  | zero =>
    intro bs hlen cps h
    match bs, hlen with
    | [], _ =>
      rw [utf8DecodeCps] at h
      have h' := Option.some.inj h
      subst h'
      rfl
  | succ n ih =>
    intro bs hlen cps h
    match bs with
    | [] =>
      rw [utf8DecodeCps] at h
      have h' := Option.some.inj h
      subst h'
      rfl
    | [b0] =>
      rw [utf8DecodeCps] at h
      by_cases h1 : b0 < 0x80
      · rw [if_pos h1] at h
        have h' := Option.some.inj h
        subst h'
        rw [utf8Encode_cons, encodeCp_one h1]
        rfl
      · rw [if_neg h1] at h
        simp at h
    | [b0, b1] =>
      rw [utf8DecodeCps] at h
      by_cases h1 : b0 < 0x80
      · rw [if_pos h1] at h
        cases hr : utf8DecodeCps [b1] with
        | none => rw [hr] at h; simp at h
        | some cs =>
          rw [hr] at h
          simp only [Option.map_some', Option.some.injEq] at h
          subst h
          rw [utf8Encode_cons, ih [b1] (by simp at hlen ⊢; omega) cs hr, encodeCp_one h1]
          rfl
      · rw [if_neg h1] at h
        by_cases h2 : b0 < 0xC2
        · rw [if_pos h2] at h
          simp at h
        · rw [if_neg h2] at h
          by_cases h3 : b0 < 0xE0
          · rw [if_pos h3] at h
            by_cases hc : isCont b1
            · rw [if_pos hc] at h
              have h' := Option.some.inj h
              subst h'
              rw [utf8Encode_cons, encodeCp_two (by omega) h3 hc]
              rfl
            · rw [if_neg hc] at h
              simp at h
          · rw [if_neg h3] at h
            simp at h
    | [b0, b1, b2] =>
      rw [utf8DecodeCps] at h
      by_cases h1 : b0 < 0x80
      · rw [if_pos h1] at h
        cases hr : utf8DecodeCps [b1, b2] with
        | none => rw [hr] at h; simp at h
        | some cs =>
          rw [hr] at h
          simp only [Option.map_some', Option.some.injEq] at h
          subst h
          rw [utf8Encode_cons, ih [b1, b2] (by simp at hlen ⊢; omega) cs hr, encodeCp_one h1]
          rfl
      · rw [if_neg h1] at h
        by_cases h2 : b0 < 0xC2
        · rw [if_pos h2] at h
          simp at h
        · rw [if_neg h2] at h
          by_cases h3 : b0 < 0xE0
          · rw [if_pos h3] at h
            by_cases hc : isCont b1
            · rw [if_pos hc] at h
              cases hr : utf8DecodeCps [b2] with
              | none => rw [hr] at h; simp at h
              | some cs =>
                rw [hr] at h
                simp only [Option.map_some', Option.some.injEq] at h
                subst h
                rw [utf8Encode_cons, ih [b2] (by simp at hlen ⊢; omega) cs hr,
                  encodeCp_two (by omega) h3 hc]
                rfl
            · rw [if_neg hc] at h
              simp at h
          · rw [if_neg h3] at h
            by_cases h4 : b0 < 0xF0
            · rw [if_pos h4] at h
              by_cases hc : okE b0 b1 && isCont b2
              · rw [if_pos hc] at h
                rw [Bool.and_eq_true] at hc
                have h' := Option.some.inj h
                subst h'
                rw [utf8Encode_cons, encodeCp_three (by omega) h4 hc.1 hc.2]
                rfl
              · rw [if_neg hc] at h
                simp at h
            · rw [if_neg h4] at h
              simp at h
    | b0 :: b1 :: b2 :: b3 :: rest =>
      rw [utf8DecodeCps] at h
      have hlen' : (b1 :: b2 :: b3 :: rest).length ≤ n := by
        simp at hlen ⊢
        omega
      by_cases h1 : b0 < 0x80
      · rw [if_pos h1] at h
        cases hr : utf8DecodeCps (b1 :: b2 :: b3 :: rest) with
        | none => rw [hr] at h; simp at h
        | some cs =>
          rw [hr] at h
          simp only [Option.map_some', Option.some.injEq] at h
          subst h
          rw [utf8Encode_cons, ih _ hlen' cs hr, encodeCp_one h1]
          rfl
      · rw [if_neg h1] at h
        by_cases h2 : b0 < 0xC2
        · rw [if_pos h2] at h
          simp at h
        · rw [if_neg h2] at h
          by_cases h3 : b0 < 0xE0
          · rw [if_pos h3] at h
            by_cases hc : isCont b1
            · rw [if_pos hc] at h
              cases hr : utf8DecodeCps (b2 :: b3 :: rest) with
              | none => rw [hr] at h; simp at h
              | some cs =>
                rw [hr] at h
                simp only [Option.map_some', Option.some.injEq] at h
                subst h
                rw [utf8Encode_cons, ih _ (by simp at hlen ⊢; omega) cs hr,
                  encodeCp_two (by omega) h3 hc]
                rfl
            · rw [if_neg hc] at h
              simp at h
          · rw [if_neg h3] at h
            by_cases h4 : b0 < 0xF0
            · rw [if_pos h4] at h
              by_cases hc : okE b0 b1 && isCont b2
              · rw [if_pos hc] at h
                rw [Bool.and_eq_true] at hc
                cases hr : utf8DecodeCps (b3 :: rest) with
                | none => rw [hr] at h; simp at h
                | some cs =>
                  rw [hr] at h
                  simp only [Option.map_some', Option.some.injEq] at h
                  subst h
                  rw [utf8Encode_cons, ih _ (by simp at hlen ⊢; omega) cs hr,
                    encodeCp_three (by omega) h4 hc.1 hc.2]
                  rfl
              · rw [if_neg hc] at h
                simp at h
            · rw [if_neg h4] at h
              by_cases h5 : b0 < 0xF5
              · rw [if_pos h5] at h
                by_cases hc : okF b0 b1 && isCont b2 && isCont b3
                · rw [if_pos hc] at h
                  rw [Bool.and_eq_true, Bool.and_eq_true] at hc
                  cases hr : utf8DecodeCps rest with
                  | none => rw [hr] at h; simp at h
                  | some cs =>
                    rw [hr] at h
                    simp only [Option.map_some', Option.some.injEq] at h
                    subst h
                    rw [utf8Encode_cons, ih _ (by simp at hlen ⊢; omega) cs hr,
                      encodeCp_four (by omega) h5 hc.1.1 hc.1.2 hc.2]
                    rfl
                · rw [if_neg hc] at h
                  simp at h
              · rw [if_neg h5] at h
                simp at h

/-- Decoding then re-encoding a valid UTF-8 byte stream reproduces it
exactly (the "verbatim" property). -/
theorem utf8_roundtrip {bs cps : List Nat} (h : utf8DecodeCps bs = some cps) :
    utf8Encode cps = bs :=
  utf8_roundtrip_aux bs.length bs (Nat.le_refl _) cps h

/-! ## Jobs are dispatched one per discovered path -/

theorem par_fold_jobs (oracle : Oracle) :
    ∀ (paths : List String) (st : FS × List LogEvent × List String)
      (res : FS × List LogEvent × List String),
    paths.foldlM
      (fun st p =>
        (estimate_gene_tree oracle st.1 p).bind
          (fun r => some (r.1, st.2.1 ++ r.2, st.2.2 ++ [p]))) st = some res →
    res.2.2 = st.2.2 ++ paths := by
  intro paths
  induction paths with
  | nil =>
    intro st res h
    simp only [List.foldlM_nil, Option.pure_def, Option.some.injEq] at h
    rw [← h]
    simp
  | cons p rest ih =>
    intro st res h
    rw [List.foldlM_cons] at h
    cases he : estimate_gene_tree oracle st.1 p with
    | none =>
      rw [he] at h
      simp at h
    | some r =>
      rw [he] at h
      simp only [Option.bind_eq_bind, Option.some_bind] at h
      have := ih _ _ h
      rw [this]
      simp [List.append_assoc]

/-! ## Claim theorems -/

/-- Claim C1: the Gene-Tree Batch Stage aborts fatally — with the input
filesystem untouched, so before creating any output directory or dispatching
any Job — whenever the File Locator discovers fewer than two alignment
files, and any completed run dispatched exactly one Job per discovered file,
in particular at least two. -/
theorem gene_batch_assert_and_dispatch (oracle : Oracle) (dir : String) (fmt : InputFmt)
    (fs : FS) :
    ((globFS fs (getPattern dir fmt)).length < 2 →
      build_gene_trees oracle dir fmt fs = .assertFail fs) ∧
    (∀ fs' logs jobs recs, build_gene_trees oracle dir fmt fs = .ok fs' logs jobs recs →
      jobs = globFS fs (getPattern dir fmt) ∧ 2 ≤ jobs.length) := by
  constructor
  · intro hlt
    unfold build_gene_trees
    rw [if_pos (by omega)]
  · intro fs' logs jobs recs hok
    unfold build_gene_trees at hok
    by_cases hle : (globFS fs (getPattern dir fmt)).length ≤ 1
    · rw [if_pos hle] at hok
      cases hok
    · rw [if_neg hle] at hok
      unfold par_process_gene_trees at hok
      cases hp : (globFS fs (getPattern dir fmt)).foldlM
          (fun st p =>
            (estimate_gene_tree oracle st.1 p).bind
              (fun r => some (r.1, st.2.1 ++ r.2, st.2.2 ++ [p])))
          ((fs.createDirAll GENE_TREE_DIR, [], []) :
            FS × List LogEvent × List String) with
      | none =>
        rw [hp] at hok
        cases hok
      | some res =>
        obtain ⟨a, bl, cj⟩ := res
        rw [hp] at hok
        have hjobs := par_fold_jobs oracle _ _ _ hp
        simp only [combine_spec] at hok
        cases hok
        have hj : jobs = globFS fs (getPattern dir fmt) := by simpa using hjobs
        rw [hj]
        exact ⟨rfl, by omega⟩

/-- Claim C1 witness: with a single discovered alignment the stage aborts
with the filesystem unchanged. -/
theorem gene_batch_assert_and_dispatch_witness :
    build_gene_trees (fun _ => ⟨⟨true, [], []⟩, []⟩) "aln" .Fasta
        ⟨[("aln/a.fasta", "A")], []⟩ =
      .assertFail ⟨[("aln/a.fasta", "A")], []⟩ :=
  (gene_batch_assert_and_dispatch (fun _ => ⟨⟨true, [], []⟩, []⟩) "aln" .Fasta
    ⟨[("aln/a.fasta", "A")], []⟩).1 (by decide)

/-- Claim C4: with an override parameter string the constructed `iqtree2`
argument list is exactly the fixed `-s <path> --prefix <pfx>` followed by
the override split on whitespace, with no default thread-count or bootstrap
flag; with no override the defaults `-T 1 -B 1000` are appended instead; and
the override `"-m GTR -B 1000"` splits into exactly
`["-m", "GTR", "-B", "1000"]`. -/
theorem iqtree_args_override_replaces_defaults (path pfx ov : String) :
    run_iqtree_args path pfx (some ov) =
      ["-s", path, "--prefix", pfx] ++ splitWhitespace ov ∧
    run_iqtree_args path pfx none =
      ["-s", path, "--prefix", pfx, "-T", "1", "-B", "1000"] ∧
    splitWhitespace "-m GTR -B 1000" = ["-m", "GTR", "-B", "1000"] :=
  ⟨rfl, rfl, by decide⟩

/-- Claim C8: the Concordance-Factor Stage invokes the tree-inference
program with exactly
`-t concat.treefile --gcf genes.treefiles -p <path> --scf 100 -T <cores>
--prefix concord`, where `cores` is the physical core count and the
species-tree and TreeCollection file names are the fixed filesystem-contract
names. -/
theorem concordance_args_exact (path : String) (cores : Nat) :
    run_iqtree_concord_args path CONCORD_FACTOR_PREFIX cores =
      ["-t", "concat.treefile", "--gcf", "genes.treefiles", "-p", path,
       "--scf", "100", "-T", toString cores, "--prefix", "concord"] ∧
    GENE_TREE_NAME = "genes.treefiles" ∧
    CONCORD_FACTOR_PREFIX = "concord" ∧
    SPECIES_TREE_PREFIX ++ ".treefile" = "concat.treefile" :=
  ⟨rfl, rfl, rfl, rfl⟩

/-- Claim C9: `check_process_success` never panics on a successful exit; on
a non-zero exit it panics exactly when a captured stream is not valid UTF-8
(the `unwrap` on `str::from_utf8`), and such a panic propagates out of the
whole per-locus worker `estimate_gene_tree`, escalating an isolated failure
into an abort. -/
theorem check_process_utf8_totality (out : Output) (path : String) :
    (out.success = true → check_process_success out path = some []) ∧
    (out.success = false →
      (check_process_success out path = none ↔
        (utf8DecodeCps out.stdout = none ∨ utf8DecodeCps out.stderr = none))) ∧
    (∀ (oracle : Oracle) (fs : FS) (p : String), (oracle p).out.success = false →
      utf8DecodeCps (oracle p).out.stdout = none →
      estimate_gene_tree oracle fs p = none) := by
  refine ⟨?_, ?_, ?_⟩
  · intro hs
    unfold check_process_success
    rw [if_pos hs]
  · intro hs
    unfold check_process_success
    rw [if_neg (by simp [hs])]
    constructor
    · intro hnone
      by_contra hcon
      push_neg at hcon
      obtain ⟨o, ho⟩ := Option.ne_none_iff_exists'.1 hcon.1
      obtain ⟨e, he⟩ := Option.ne_none_iff_exists'.1 hcon.2
      rw [show decodeStr out.stdout = some (String.mk (o.map Char.ofNat)) by
            rw [decodeStr, ho]; rfl,
          show decodeStr out.stderr = some (String.mk (e.map Char.ofNat)) by
            rw [decodeStr, he]; rfl] at hnone
      cases hnone
    · intro hor
      rcases hor with hinv | hinv
      · rw [show decodeStr out.stdout = none by rw [decodeStr, hinv]; rfl]
      · rw [show decodeStr out.stderr = none by rw [decodeStr, hinv]; rfl]
        cases decodeStr out.stdout <;> rfl
  · intro oracle fs p hfail hinv
    unfold estimate_gene_tree
    cases hst : fileStem p with
    | none => rfl
    | some s =>
      simp only [Option.bind_eq_bind, Option.some_bind]
      have hchk : check_process_success (oracle p).out p = none := by
        unfold check_process_success
        rw [if_neg (by simp [hfail])]
        rw [show decodeStr (oracle p).out.stdout = none by rw [decodeStr, hinv]; rfl]
      rw [hchk]
      rfl

/-- Claim C7 counterexample: an MSC run whose coalescence subprocess exits
non-zero completes without writing the captured stderr (here the byte `e`)
to `msc_astral.log` — the log write happens only on success, so the claim
"for every run" is false. -/
theorem msc_stderr_not_logged_on_failure :
    (estimate_msc_tree ⟨false, [], [0x65]⟩ "gene-trees" ⟨[], []⟩).map
        (fun r => r.1.read ASTRAL_LOG_NAME) = some none := by
  decide

/-- Claim C7 (amended): for every MSC-Tree Stage run whose coalescence
subprocess exits with status zero (and whose stderr is valid UTF-8 — else
the `unwrap` panics), the decoded stderr is written to the fixed
`msc_astral.log` file, verbatim: re-encoding the written text yields exactly
the captured byte stream.  On a non-zero exit the log file is not
written. -/
theorem msc_log_verbatim_on_success (out : Output) (path : String) (fs : FS)
    (hs : out.success = true) {cps : List Nat}
    (hv : utf8DecodeCps out.stderr = some cps) :
    estimate_msc_tree out path fs =
      some (fs.create ASTRAL_LOG_NAME (String.mk (cps.map Char.ofNat)), []) ∧
    utf8Encode cps = out.stderr ∧
    (fs.create ASTRAL_LOG_NAME (String.mk (cps.map Char.ofNat))).read ASTRAL_LOG_NAME =
      some (String.mk (cps.map Char.ofNat)) := by
  refine ⟨?_, utf8_roundtrip hv, FS.read_create_self fs _ _⟩
  unfold estimate_msc_tree
  have hchk : check_process_success out path = some [] := by
    unfold check_process_success
    rw [if_pos hs]
  rw [hchk]
  simp only [Option.bind_eq_bind, Option.some_bind, if_pos hs]
  unfold write_astral_output
  rw [show decodeStr out.stderr = some (String.mk (cps.map Char.ofNat)) by
    rw [decodeStr, hv]; rfl]
  rfl

/-- Claim C7 (amended) witness: a successful run with stderr bytes
`"Aé"` (`[0x41, 0xC3, 0xA9]`) writes exactly that text to the log, and
re-encoding reproduces the bytes. -/
theorem msc_log_verbatim_on_success_witness :
    estimate_msc_tree ⟨true, [], [0x41, 0xC3, 0xA9]⟩ "gene-trees" ⟨[], []⟩ =
      some ((⟨[], []⟩ : FS).create ASTRAL_LOG_NAME
        (String.mk ([0x41, 0xE9].map Char.ofNat)), []) ∧
    utf8Encode [0x41, 0xE9] = [0x41, 0xC3, 0xA9] ∧
    ((⟨[], []⟩ : FS).create ASTRAL_LOG_NAME
        (String.mk ([0x41, 0xE9].map Char.ofNat))).read ASTRAL_LOG_NAME =
      some (String.mk ([0x41, 0xE9].map Char.ofNat)) :=
  msc_log_verbatim_on_success ⟨true, [], [0x41, 0xC3, 0xA9]⟩ "gene-trees" ⟨[], []⟩
    rfl (by decide)

/-- Claim C6: for a Job Prefix the Artifact Collector finds all `<pfx>.*`
files and moves each one — a file with the primary extension `treefile` to
the tree-output directory `gene-treefiles/`, any other file to the
prefix-named archive subdirectory `iqtree-genes/<pfx>/` — removing it from
its original location. -/
theorem artifact_collector_moves (fs : FS) (pfx : String)
    (hknd : fs.keys.Nodup)
    (hpfx : ∀ c ∈ pfx.data, c ≠ '/')
    (hext : ∀ f ∈ get_iqtree_files fs pfx, (fileExt f).isSome)
    (hdfresh : ∀ f ∈ get_iqtree_files fs pfx, geneDest pfx f ∉ fs.keys)
    (hdnd : ((get_iqtree_files fs pfx).map (geneDest pfx)).Nodup) :
    ∃ fs', organize_gene_files fs (get_iqtree_files fs pfx) pfx = some fs' ∧
      ∀ f ∈ get_iqtree_files fs pfx,
        fs'.read (geneDest pfx f) = fs.read f ∧
        fs'.read f = none ∧
        (fileExt f = some "treefile" → geneDest pfx f = GENE_TREE_DIR ++ "/" ++ f) ∧
        (fileExt f ≠ some "treefile" →
          geneDest pfx f = GENE_TREE_OUTPUT_DIR ++ "/" ++ pfx ++ "/" ++ f) := by
  have hglob : get_iqtree_files fs pfx = globFS fs (pfx ++ ".*") := rfl
  have hnd : (get_iqtree_files fs pfx).Nodup := by
    rw [hglob]
    exact globFS_nodup _ hknd
  have hslash : ∀ f ∈ get_iqtree_files fs pfx, ∀ c ∈ f.data, c ≠ '/' := by
    intro f hf
    exact no_slash_of_match_pfx hpfx (mem_globFS.1 (hglob ▸ hf)).2
  have hsrc : ∀ f ∈ get_iqtree_files fs pfx, f ∈ fs.keys :=
    fun f hf => (mem_globFS.1 (hglob ▸ hf)).1
  obtain ⟨fs', horg, hperm⟩ := organize_gene_files_spec hknd hsrc hext hnd hslash hdfresh hdnd
  have hkeysperm : List.Perm fs'.keys
      ((get_iqtree_files fs pfx).map (geneDest pfx) ++
        (fs.files.filter (fun e => e.1 ∉ get_iqtree_files fs pfx)).map Prod.fst) := by
    have hk := hperm.map Prod.fst
    rw [List.map_append, List.map_map] at hk
    have hfun : (Prod.fst ∘ fun f => (geneDest pfx f, (fs.read f).getD "")) =
        geneDest pfx := by
      funext f
      rfl
    rw [hfun] at hk
    exact hk
  have hknd' : (fs'.files.map Prod.fst).Nodup := by
    refine hkeysperm.nodup_iff.2 (List.Nodup.append hdnd ?_ ?_)
    · exact List.Nodup.sublist ((List.filter_sublist _).map Prod.fst) hknd
    · intro k hk1 hk2
      obtain ⟨f, hf, hfe⟩ := List.mem_map.1 hk1
      obtain ⟨e, he, hke⟩ := List.mem_map.1 hk2
      refine hdfresh f hf ?_
      rw [hfe, ← hke]
      exact List.mem_map_of_mem Prod.fst (List.mem_of_mem_filter he)
  refine ⟨fs', horg, ?_⟩
  intro f hf
  obtain ⟨c, hc⟩ := lookup_isSome_of_mem_keys (hsrc f hf)
  have hcread : fs.read f = some c := hc
  refine ⟨?_, ?_, ?_, ?_⟩
  · have hmem : (geneDest pfx f, (fs.read f).getD "") ∈ fs'.files :=
      hperm.mem_iff.2 (List.mem_append_left _ (List.mem_map_of_mem _ hf))
    have hr : fs'.read (geneDest pfx f) = some ((fs.read f).getD "") :=
      lookup_eq_some_of_mem hknd' hmem
    rw [hr, hcread]
    rfl
  · rw [FS.read]
    apply lookup_eq_none_iff.2
    intro hmemk
    rcases List.mem_append.1 (hkeysperm.mem_iff.1 hmemk) with hm | hm
    · obtain ⟨g, hg, hge⟩ := List.mem_map.1 hm
      exact geneDest_ne_slashfree (hslash f hf) hge
    · obtain ⟨e, he, hke⟩ := List.mem_map.1 hm
      have hnotin := (List.mem_filter.1 he).2
      rw [hke] at hnotin
      simp at hnotin
      exact hnotin hf
  · intro he
    unfold geneDest
    rw [if_pos he]
  · intro he
    unfold geneDest
    rw [if_neg he]

/-- Claim C6 witness: with files `prefix.treefile`, `prefix.log`,
`prefix.iqtree` on disk, the collector puts `prefix.treefile` under the
tree-output directory and the other two under `iqtree-genes/prefix/`. -/
theorem artifact_collector_moves_witness :
    ∃ fs', organize_gene_files
        ⟨[("prefix.treefile", "T"), ("prefix.log", "L"), ("prefix.iqtree", "Q")], []⟩
        (get_iqtree_files
          ⟨[("prefix.treefile", "T"), ("prefix.log", "L"), ("prefix.iqtree", "Q")], []⟩
          "prefix")
        "prefix" = some fs' ∧
      ∀ f ∈ get_iqtree_files
          ⟨[("prefix.treefile", "T"), ("prefix.log", "L"), ("prefix.iqtree", "Q")], []⟩
          "prefix",
        fs'.read (geneDest "prefix" f) =
          FS.read ⟨[("prefix.treefile", "T"), ("prefix.log", "L"), ("prefix.iqtree", "Q")], []⟩ f ∧
        fs'.read f = none ∧
        (fileExt f = some "treefile" → geneDest "prefix" f = GENE_TREE_DIR ++ "/" ++ f) ∧
        (fileExt f ≠ some "treefile" →
          geneDest "prefix" f = GENE_TREE_OUTPUT_DIR ++ "/" ++ "prefix" ++ "/" ++ f) :=
  artifact_collector_moves
    ⟨[("prefix.treefile", "T"), ("prefix.log", "L"), ("prefix.iqtree", "Q")], []⟩
    "prefix" (by decide) (by decide) (by decide) (by decide) (by decide)

/-! ## Species-stage organizer lemmas -/

theorem str_append_left_cancel {a b c : String} (h : a ++ b = a ++ c) : b = c := by
  have hd := congrArg String.data h
  rw [String.data_append, String.data_append] at hd
  have hbc := List.append_cancel_left hd
  cases b
  cases c
  exact congrArg String.mk hbc

theorem FS.read_rename_dst {fs fs' : FS} {src dst c : String}
    (hr : fs.rename src dst = some fs') (hc : fs.read src = some c) :
    fs'.read dst = some c := by
  rw [FS.rename_eq_some hc] at hr
  have h' := Option.some.inj hr
  rw [← h', FS.read, List.lookup]
  simp

theorem FS.read_rename_src {fs fs' : FS} {src dst : String}
    (hr : fs.rename src dst = some fs') (hne : src ≠ dst) :
    fs'.read src = none := by
  unfold FS.rename at hr
  cases hc : fs.read src with
  | none => rw [hc] at hr; cases hr
  | some c =>
    rw [hc] at hr
    have h' := Option.some.inj hr
    rw [← h', FS.read, List.lookup, beq_false_of_ne hne]
    apply lookup_eq_none_iff.2
    intro hmem
    obtain ⟨e, he, hke⟩ := List.mem_map.1 hmem
    have hp := (List.mem_filter.1 he).2
    simp only [decide_eq_true_eq] at hp
    exact hp.1 hke

/-- Reads of names untouched by the species-stage move fold are
preserved. -/
theorem species_fold_read :
    ∀ (files : List String) (fs fs' : FS),
    files.foldlM
      (fun f file =>
        match fileExt file with
        | none => none
        | some ext =>
          if ext ≠ "treefile" then f.rename file (SPECIES_TREE_OUTPUT_DIR ++ "/" ++ file)
          else some f) fs = some fs' →
    ∀ name, name ∉ files →
    (∀ f ∈ files, SPECIES_TREE_OUTPUT_DIR ++ "/" ++ f ≠ name) →
    fs'.read name = fs.read name := by
  intro files
  induction files with
  | nil =>
    intro fs fs' h name _ _
    simp only [List.foldlM_nil, Option.pure_def, Option.some.injEq] at h
    rw [← h]
  | cons f0 rest ih =>
    intro fs fs' h name hnin hdst
    rw [List.foldlM_cons] at h
    cases hx : fileExt f0 with
    | none => rw [hx] at h; cases h
    | some e0 =>
      rw [hx] at h
      dsimp only at h
      by_cases he0 : e0 ≠ "treefile"
      · rw [if_pos he0] at h
        cases hr : fs.rename f0 (SPECIES_TREE_OUTPUT_DIR ++ "/" ++ f0) with
        | none => rw [hr] at h; cases h
        | some fs1 =>
          rw [hr] at h
          simp only [Option.bind_eq_bind, Option.some_bind] at h
          have h1 := ih fs1 fs' h name (fun hm => hnin (by simp [hm]))
            (fun f hf => hdst f (by simp [hf]))
          rw [h1]
          exact FS.read_rename_other hr (fun hc => hnin (by simp [hc]))
            (fun hc => hdst f0 (by simp) hc.symm)
      · rw [if_neg he0] at h
        simp only [Option.bind_eq_bind, Option.some_bind] at h
        exact ih fs fs' h name (fun hm => hnin (by simp [hm]))
          (fun f hf => hdst f (by simp [hf]))

/-- The species-stage move fold: `*.treefile` files stay in place, all other
collected files are moved into the species output directory. -/
theorem species_fold_moves :
    ∀ (files : List String) (fs fs' : FS),
    files.foldlM
      (fun f file =>
        match fileExt file with
        | none => none
        | some ext =>
          if ext ≠ "treefile" then f.rename file (SPECIES_TREE_OUTPUT_DIR ++ "/" ++ file)
          else some f) fs = some fs' →
    files.Nodup →
    (∀ f ∈ files, ∀ c ∈ f.data, c ≠ '/') →
    (∀ f ∈ files, fileExt f = some "treefile" → fs'.read f = fs.read f) ∧
    (∀ f ∈ files, ∀ e, fileExt f = some e → e ≠ "treefile" →
      fs'.read (SPECIES_TREE_OUTPUT_DIR ++ "/" ++ f) = fs.read f ∧ fs'.read f = none) := by
  intro files
  induction files with
  | nil =>
    intro fs fs' h _ _
    exact ⟨fun f hf => absurd hf (by simp), fun f hf => absurd hf (by simp)⟩
  | cons f0 rest ih =>
    intro fs fs' h hnd hslash
    rw [List.foldlM_cons] at h
    have hnd' := List.nodup_cons.1 hnd
    have hslashr : ∀ f ∈ rest, ∀ c ∈ f.data, c ≠ '/' := fun f hf => hslash f (by simp [hf])
    have hsl0 : ∀ c ∈ f0.data, c ≠ '/' := hslash f0 (by simp)
    have hdstslash : ∀ (g : String), (∀ c ∈ g.data, c ≠ '/') →
        ∀ f : String, SPECIES_TREE_OUTPUT_DIR ++ "/" ++ f ≠ g := by
      intro g hg f hc
      have : '/' ∈ g.data := by
        rw [← hc]
        show '/' ∈ (("iqtree-species-tree" ++ "/") ++ f).data
        rw [String.data_append]
        exact List.mem_append_left _ (by decide)
      exact hg '/' this rfl
    cases hx : fileExt f0 with
    | none => rw [hx] at h; cases h
    | some e0 =>
      rw [hx] at h
      dsimp only at h
      by_cases he0 : e0 ≠ "treefile"
      · rw [if_pos he0] at h
        cases hr : fs.rename f0 (SPECIES_TREE_OUTPUT_DIR ++ "/" ++ f0) with
        | none => rw [hr] at h; cases h
        | some fs1 =>
          rw [hr] at h
          simp only [Option.bind_eq_bind, Option.some_bind] at h
          obtain ⟨ih1, ih2⟩ := ih fs1 fs' h hnd'.2 hslashr
          have hread1 : ∀ g ∈ rest, fs1.read g = fs.read g := by
            intro g hg
            exact FS.read_rename_other hr
              (fun hc => hnd'.1 (hc ▸ hg))
              (fun hc => hdstslash g (hslashr g hg) f0 hc.symm)
          have hc0 : ∃ c, fs.read f0 = some c := by
            unfold FS.rename at hr
            cases hcc : fs.read f0 with
            | none => rw [hcc] at hr; cases hr
            | some c => exact ⟨c, rfl⟩
          obtain ⟨c0, hc0⟩ := hc0
          constructor
          · intro f hf hft
            rcases List.mem_cons.1 hf with hf0 | hfr
            · rw [hf0] at hft
              rw [hft] at hx
              exact absurd (Option.some.inj hx).symm he0
            · rw [ih1 f hfr hft, hread1 f hfr]
          · intro f hf e hfe hene
            rcases List.mem_cons.1 hf with hf0 | hfr
            · subst hf0
              constructor
              · have hpres := species_fold_read rest fs1 fs' h
                  (SPECIES_TREE_OUTPUT_DIR ++ "/" ++ f)
                  (fun hm => (hdstslash _ (hslashr _ hm) f rfl).elim)
                  (fun g hg hc => hnd'.1 (str_append_left_cancel hc ▸ hg))
                rw [hpres, FS.read_rename_dst hr hc0, hc0]
              · have hpres := species_fold_read rest fs1 fs' h f
                  (fun hm => hnd'.1 hm)
                  (fun g hg hc => hdstslash f hsl0 g hc)
                rw [hpres]
                exact FS.read_rename_src hr
                  (fun hc => hdstslash f hsl0 f hc.symm)
            · obtain ⟨hm, hn⟩ := ih2 f hfr e hfe hene
              exact ⟨by rw [hm, hread1 f hfr], hn⟩
      · rw [if_neg he0] at h
        simp only [Option.bind_eq_bind, Option.some_bind] at h
        have he0' : e0 = "treefile" := by simpa using he0
        obtain ⟨ih1, ih2⟩ := ih fs fs' h hnd'.2 hslashr
        constructor
        · intro f hf hft
          rcases List.mem_cons.1 hf with hf0 | hfr
          · subst hf0
            exact species_fold_read rest fs fs' h f
              (fun hm => hnd'.1 hm)
              (fun g hg hc => hdstslash f hsl0 g hc)
          · exact ih1 f hfr hft
        · intro f hf e hfe hene
          rcases List.mem_cons.1 hf with hf0 | hfr
          · subst hf0
            rw [hx] at hfe
            exact absurd ((Option.some.inj hfe) ▸ he0') hene
          · exact ih2 f hfr e hfe hene

/-- Claim C10: the species-stage artifact organizer moves every collected
`<prefix>.*` file into the species output directory except `*.treefile`
files, which stay untouched at their original path; in particular the
species primary result file `concat.treefile` remains at exactly the path
the Concordance-Factor Stage later passes as its `-t` argument. -/
theorem species_treefile_in_place (fs : FS) (files : List String) (fs' : FS)
    (horg : organize_species_files fs files = some fs')
    (hnd : files.Nodup)
    (hslash : ∀ f ∈ files, ∀ c ∈ f.data, c ≠ '/') :
    (∀ f ∈ files, fileExt f = some "treefile" → fs'.read f = fs.read f) ∧
    (∀ f ∈ files, ∀ e, fileExt f = some e → e ≠ "treefile" →
      fs'.read (SPECIES_TREE_OUTPUT_DIR ++ "/" ++ f) = fs.read f ∧ fs'.read f = none) ∧
    (∀ (path pfx : String) (cores : Nat),
      (run_iqtree_concord_args path pfx cores).get? 1 = some "concat.treefile") ∧
    ("concat.treefile" ∈ files → fs'.read "concat.treefile" = fs.read "concat.treefile") := by
  unfold organize_species_files at horg
  have hrd : ∀ n, (fs.createDirAll SPECIES_TREE_OUTPUT_DIR).read n = fs.read n := by
    intro n
    rw [FS.read, FS.createDirAll_files]
    rfl
  obtain ⟨h1, h2⟩ := species_fold_moves files (fs.createDirAll SPECIES_TREE_OUTPUT_DIR)
    fs' horg hnd hslash
  refine ⟨?_, ?_, fun _ _ _ => rfl, ?_⟩
  · intro f hf hft
    rw [h1 f hf hft, hrd]
  · intro f hf e hfe hene
    obtain ⟨hm, hn⟩ := h2 f hf e hfe hene
    exact ⟨by rw [hm, hrd], hn⟩
  · intro hmem
    rw [h1 "concat.treefile" hmem (by decide), hrd]

/-- Claim C10 witness: with `concat.treefile` and `concat.log` collected,
the log file moves into `iqtree-species-tree/` while `concat.treefile`
stays put at the exact `-t` path of the concordance invocation. -/
theorem species_treefile_in_place_witness :
    (∀ f ∈ ["concat.treefile", "concat.log"], fileExt f = some "treefile" →
      FS.read ⟨[("iqtree-species-tree/concat.log", "L"), ("concat.treefile", "ST")],
        ["iqtree-species-tree"]⟩ f =
        FS.read ⟨[("concat.treefile", "ST"), ("concat.log", "L")], []⟩ f) ∧
    (∀ f ∈ ["concat.treefile", "concat.log"], ∀ e, fileExt f = some e → e ≠ "treefile" →
      FS.read ⟨[("iqtree-species-tree/concat.log", "L"), ("concat.treefile", "ST")],
        ["iqtree-species-tree"]⟩ (SPECIES_TREE_OUTPUT_DIR ++ "/" ++ f) =
        FS.read ⟨[("concat.treefile", "ST"), ("concat.log", "L")], []⟩ f ∧
      FS.read ⟨[("iqtree-species-tree/concat.log", "L"), ("concat.treefile", "ST")],
        ["iqtree-species-tree"]⟩ f = none) ∧
    (∀ (path pfx : String) (cores : Nat),
      (run_iqtree_concord_args path pfx cores).get? 1 = some "concat.treefile") ∧
    ("concat.treefile" ∈ ["concat.treefile", "concat.log"] →
      FS.read ⟨[("iqtree-species-tree/concat.log", "L"), ("concat.treefile", "ST")],
        ["iqtree-species-tree"]⟩ "concat.treefile" =
        FS.read ⟨[("concat.treefile", "ST"), ("concat.log", "L")], []⟩ "concat.treefile") :=
  species_treefile_in_place ⟨[("concat.treefile", "ST"), ("concat.log", "L")], []⟩
    ["concat.treefile", "concat.log"]
    ⟨[("iqtree-species-tree/concat.log", "L"), ("concat.treefile", "ST")],
      ["iqtree-species-tree"]⟩
    (by decide) (by decide) (by decide)

/-- Claim C9 witness: a failed subprocess whose stdout is the invalid UTF-8
byte `0xFF` makes the failure-logging path panic, and the panic aborts the
whole worker. -/
theorem check_process_utf8_totality_witness :
    check_process_success ⟨false, [0xFF], []⟩ "aln/x.fasta" = none ∧
    estimate_gene_tree (fun _ => ⟨⟨false, [0xFF], []⟩, []⟩) ⟨[], []⟩ "aln/x.fasta" =
      none :=
  ⟨((check_process_utf8_totality ⟨false, [0xFF], []⟩ "aln/x.fasta").2.1 rfl).2
      (Or.inl (by decide)),
    (check_process_utf8_totality ⟨false, [0xFF], []⟩ "aln/x.fasta").2.2
      (fun _ => ⟨⟨false, [0xFF], []⟩, []⟩) ⟨[], []⟩ "aln/x.fasta" rfl (by decide)⟩

/-! ## Lemmas: counting the records of a batch with one faulted job -/

theorem filter_eq_singleton_of_unique {l : List String} {a : String} {p : String → Bool}
    (hnd : l.Nodup) (ha : a ∈ l) (hpa : p a = true)
    (hq : ∀ x ∈ l, x ≠ a → p x = false) :
    l.filter p = [a] := by
  induction l with
  | nil => cases ha
  | cons x xs ih =>
    have hx : x ∉ xs := (List.nodup_cons.1 hnd).1
    rw [List.filter_cons]
    rcases List.mem_cons.1 ha with hax | hax
    · rw [if_pos (by rw [← hax]; exact hpa)]
      have hnil : xs.filter p = [] := by
        apply List.filter_eq_nil_iff.2
        intro y hy
        have hya : y ≠ a := by
          intro hEq
          exact hx ((hEq.trans hax) ▸ hy)
        simp [hq y (List.mem_cons_of_mem _ hy) hya]
      rw [hnil, ← hax]
    · have hxa : x ≠ a := fun hEq => hx (hEq ▸ hax)
      rw [if_neg (by simp [hq x (List.mem_cons_self x xs) hxa])]
      exact ih (List.nodup_cons.1 hnd).2 hax
        (fun y hy hya => hq y (List.mem_cons_of_mem _ hy) hya)

theorem countP_flatten (p : String → Bool) (ll : List (List String)) :
    (ll.flatten).countP p = (ll.map (fun l => l.countP p)).sum := by
  induction ll with
  | nil => rfl
  | cons l ls ih =>
    rw [List.flatten_cons, List.countP_append, List.map_cons, List.sum_cons, ih]

theorem countP_map_str (p : String → Bool) (f : String → String) (l : List String) :
    (l.map f).countP p = l.countP (fun a => p (f a)) := by
  induction l with
  | nil => rfl
  | cons a as ih => rw [List.map_cons, List.countP_cons, List.countP_cons, ih]

theorem countP_congr_mem {l : List String} {p q : String → Bool}
    (h : ∀ a ∈ l, p a = q a) : l.countP p = l.countP q := by
  induction l with
  | nil => rfl
  | cons a as ih =>
    rw [List.countP_cons, List.countP_cons, h a (List.mem_cons_self a as),
      ih (fun b hb => h b (List.mem_cons_of_mem _ hb))]

theorem movedPairs_keys (oracle : Oracle) (paths : List String) :
    (movedPairs oracle paths).map Prod.fst =
      (paths.map (fun q =>
        ((oracle q).produced.map Prod.fst).map (geneDest (stemOf q)))).flatten := by
  induction paths with
  | nil => rfl
  | cons p rest ih =>
    rw [List.map_cons, List.flatten_cons, movedPairs_cons, List.map_append, ih, jobPairs_keys]

theorem sum_map_all_one : ∀ (l : List String) (g : String → Nat),
    (∀ x ∈ l, g x = 1) → (l.map g).sum = l.length
  | [], _, _ => rfl
  | x :: xs, g, h => by
    rw [List.map_cons, List.sum_cons, h x (List.mem_cons_self x xs),
      sum_map_all_one xs g (fun y hy => h y (List.mem_cons_of_mem _ hy)), List.length_cons]
    omega

theorem sum_map_one_except {l : List String} {a : String} (g : String → Nat)
    (hnd : l.Nodup) (ha : a ∈ l) (h0 : g a = 0)
    (h1 : ∀ x ∈ l, x ≠ a → g x = 1) :
    (l.map g).sum = l.length - 1 := by
  induction l with
  | nil => cases ha
  | cons x xs ih =>
    have hx : x ∉ xs := (List.nodup_cons.1 hnd).1
    rw [List.map_cons, List.sum_cons]
    rcases List.mem_cons.1 ha with hax | hax
    · rw [← hax, h0, sum_map_all_one xs g (fun y hy =>
        h1 y (List.mem_cons_of_mem _ hy) (fun hEq => hx ((hEq.trans hax) ▸ hy)))]
      rw [List.length_cons]
      omega
    · rw [h1 x (List.mem_cons_self x xs) (fun hEq => hx (hEq ▸ hax)),
        ih (List.nodup_cons.1 hnd).2 hax
          (fun y hy hya => h1 y (List.mem_cons_of_mem _ hy) hya)]
      have hpos : 0 < xs.length := List.length_pos_of_mem hax
      rw [List.length_cons]
      omega

/-! ## Claim C3: aggregation order and per-job contribution -/

/-- Claim C3 counterexample: with alignments `aln3/x.fasta` and
`aln3/x.g.fasta` discovered in that order and their Jobs leaving primary
files `x.treefile` (content `" TX "`) and `x.g.treefile` (content `" TG "`),
the completed run's TreeCollection records are `["TG", "TX"]` — the
alphabetical order of the swept tree-output directory, where
`x.g.treefile` sorts before `x.treefile` — and not the discovery order
`["TX", "TG"]` of the corresponding alignment files. -/
theorem tree_collection_discovery_order_counterexample :
    jobsOf (build_gene_trees
        (fun p => if p = "aln3/x.fasta" then ⟨⟨true, [], []⟩, [("x.treefile", " TX ")]⟩
          else if p = "aln3/x.g.fasta" then ⟨⟨true, [], []⟩, [("x.g.treefile", " TG ")]⟩
          else ⟨⟨true, [], []⟩, []⟩)
        "aln3" InputFmt.Fasta ⟨[("aln3/x.fasta", "A"), ("aln3/x.g.fasta", "B")], []⟩) =
      some ["aln3/x.fasta", "aln3/x.g.fasta"] ∧
    recsOf (build_gene_trees
        (fun p => if p = "aln3/x.fasta" then ⟨⟨true, [], []⟩, [("x.treefile", " TX ")]⟩
          else if p = "aln3/x.g.fasta" then ⟨⟨true, [], []⟩, [("x.g.treefile", " TG ")]⟩
          else ⟨⟨true, [], []⟩, []⟩)
        "aln3" InputFmt.Fasta ⟨[("aln3/x.fasta", "A"), ("aln3/x.g.fasta", "B")], []⟩) =
      some ["TG", "TX"] ∧
    (["TG", "TX"] : List String) ≠ ["TX", "TG"] := by
  refine ⟨by decide, by decide, by decide⟩

/-- Claim C3 (amended): the Aggregating step runs only after the whole batch
of Jobs has completed, and writes into the TreeCollection exactly one line
per primary result file found in the tree-output directory — each line the
trimmed content of that file — in the sweep's alphabetical glob order over
that directory (not in the discovery order of the alignment files); under a
clean working directory every `treefile`-extension artifact left by a
dispatched Job — in particular the primary file of every successful Job —
contributes its trimmed content as one such line. -/
theorem tree_collection_lines (oracle : Oracle) (dir : String) (fmt : InputFmt) (fs : FS)
    (h1 : ∀ p ∈ globFS fs (getPattern dir fmt), (fileStem p).isSome)
    (h2 : ∀ p ∈ globFS fs (getPattern dir fmt), ∀ c ∈ (stemOf p).data, c ≠ '/')
    (h3 : ∀ p ∈ globFS fs (getPattern dir fmt), ∀ f ∈ (oracle p).produced.map Prod.fst,
      globMatch (stemOf p ++ ".*") f = true ∧ (fileExt f).isSome)
    (h4 : ∀ p ∈ globFS fs (getPattern dir fmt), ((oracle p).produced.map Prod.fst).Nodup)
    (h6 : ∀ p ∈ globFS fs (getPattern dir fmt), ∀ k ∈ fs.keys,
      globMatch (stemOf p ++ ".*") k = false)
    (h7 : ((movedPairs oracle (globFS fs (getPattern dir fmt))).map Prod.fst).Nodup)
    (h8 : ∀ k ∈ (movedPairs oracle (globFS fs (getPattern dir fmt))).map Prod.fst,
      k ∉ fs.keys)
    (h9 : fs.keys.Nodup)
    (h10 : ∀ p ∈ globFS fs (getPattern dir fmt), (oracle p).out.success = false →
      (utf8DecodeCps (oracle p).out.stdout).isSome ∧
        (utf8DecodeCps (oracle p).out.stderr).isSome)
    (h11 : 2 ≤ (globFS fs (getPattern dir fmt)).length) :
    ∃ fsB,
      build_gene_trees oracle dir fmt fs =
        .ok ((fsB.create GENE_TREE_NAME "").create GENE_TREE_NAME
            (String.join (((globFS fsB TREE_GLOB).map (recOf fsB)).map (fun r => r ++ "\n"))))
          (batchLogs oracle (globFS fs (getPattern dir fmt)))
          (globFS fs (getPattern dir fmt))
          ((globFS fsB TREE_GLOB).map (recOf fsB)) ∧
      (∀ q ∈ globFS fs (getPattern dir fmt), ∀ nc ∈ (oracle q).produced,
        fileExt nc.1 = some "treefile" →
        trimStr nc.2 ∈ (globFS fsB TREE_GLOB).map (recOf fsB)) := by
  obtain ⟨fsB, hok, hperm, hknd⟩ :=
    build_gene_trees_spec oracle dir fmt fs h1 h2 h3 h4 h6 h7 h8 h9 h10 h11
  refine ⟨fsB, hok, ?_⟩
  intro q hq nc hnc hext
  have hsl : ∀ c ∈ nc.1.data, c ≠ '/' :=
    no_slash_of_match_pfx (h2 q hq) (h3 q hq nc.1 (List.mem_map_of_mem Prod.fst hnc)).1
  have hpair : (geneDest (stemOf q) nc.1, nc.2) ∈
      movedPairs oracle (globFS fs (getPattern dir fmt)) := by
    rw [movedPairs]
    refine List.mem_flatten.2 ⟨jobPairs oracle q, List.mem_map_of_mem _ hq, ?_⟩
    rw [jobPairs]
    exact List.mem_map_of_mem _ hnc
  have hmemB : (geneDest (stemOf q) nc.1, nc.2) ∈ fsB.files :=
    hperm.mem_iff.2 (List.mem_append_left _ hpair)
  have hkey : geneDest (stemOf q) nc.1 ∈ fsB.keys := List.mem_map_of_mem Prod.fst hmemB
  have hmatch : globMatch TREE_GLOB (geneDest (stemOf q) nc.1) = true := by
    rw [globMatch_geneDest hsl, hext]
    simp
  have hing : geneDest (stemOf q) nc.1 ∈ globFS fsB TREE_GLOB :=
    mem_globFS.2 ⟨hkey, hmatch⟩
  have hread : fsB.read (geneDest (stemOf q) nc.1) = some nc.2 :=
    lookup_eq_some_of_mem hknd hmemB
  have hrec : recOf fsB (geneDest (stemOf q) nc.1) = trimStr nc.2 := by
    rw [recOf, hread]
    rfl
  rw [← hrec]
  exact List.mem_map_of_mem _ hing

/-- Claim C3 (amended) witness: a two-locus run with primary files
`a.treefile` and `b.treefile` and one secondary artifact `b.log`, on a clean
working directory. -/
theorem tree_collection_lines_witness :
    ∃ fsB,
      build_gene_trees
          (fun p => if p = "alnw/a.fasta" then ⟨⟨true, [], []⟩, [("a.treefile", " (a,b); ")]⟩
            else if p = "alnw/b.fasta" then
              ⟨⟨true, [], []⟩, [("b.treefile", "(b,a);"), ("b.log", "L")]⟩
            else ⟨⟨true, [], []⟩, []⟩)
          "alnw" InputFmt.Fasta ⟨[("alnw/a.fasta", "A"), ("alnw/b.fasta", "B")], []⟩ =
        .ok ((fsB.create GENE_TREE_NAME "").create GENE_TREE_NAME
            (String.join (((globFS fsB TREE_GLOB).map (recOf fsB)).map (fun r => r ++ "\n"))))
          (batchLogs
            (fun p => if p = "alnw/a.fasta" then ⟨⟨true, [], []⟩, [("a.treefile", " (a,b); ")]⟩
              else if p = "alnw/b.fasta" then
                ⟨⟨true, [], []⟩, [("b.treefile", "(b,a);"), ("b.log", "L")]⟩
              else ⟨⟨true, [], []⟩, []⟩)
            (globFS ⟨[("alnw/a.fasta", "A"), ("alnw/b.fasta", "B")], []⟩
              (getPattern "alnw" InputFmt.Fasta)))
          (globFS ⟨[("alnw/a.fasta", "A"), ("alnw/b.fasta", "B")], []⟩
            (getPattern "alnw" InputFmt.Fasta))
          ((globFS fsB TREE_GLOB).map (recOf fsB)) ∧
      (∀ q ∈ globFS ⟨[("alnw/a.fasta", "A"), ("alnw/b.fasta", "B")], []⟩
          (getPattern "alnw" InputFmt.Fasta),
        ∀ nc ∈ ((fun p =>
            if p = "alnw/a.fasta" then ⟨⟨true, [], []⟩, [("a.treefile", " (a,b); ")]⟩
            else if p = "alnw/b.fasta" then
              ⟨⟨true, [], []⟩, [("b.treefile", "(b,a);"), ("b.log", "L")]⟩
            else ⟨⟨true, [], []⟩, []⟩ : Oracle) q).produced,
        fileExt nc.1 = some "treefile" →
        trimStr nc.2 ∈ (globFS fsB TREE_GLOB).map (recOf fsB)) :=
  tree_collection_lines
    (fun p => if p = "alnw/a.fasta" then ⟨⟨true, [], []⟩, [("a.treefile", " (a,b); ")]⟩
      else if p = "alnw/b.fasta" then
        ⟨⟨true, [], []⟩, [("b.treefile", "(b,a);"), ("b.log", "L")]⟩
      else ⟨⟨true, [], []⟩, []⟩)
    "alnw" InputFmt.Fasta ⟨[("alnw/a.fasta", "A"), ("alnw/b.fasta", "B")], []⟩
    (by decide) (by decide) (by decide) (by decide) (by decide)
    (by decide) (by decide) (by decide) (by decide) (by decide)

/-! ## Claim C5: directories are create-if-absent, stale artifacts merge -/

/-- Claim C5 counterexample: a rerun over two alignments while a stale
`gene-treefiles/c.treefile` (content `"STALE"`) from a previous run is still
on disk dispatches two Jobs but aggregates three records — the stale
tree is silently merged into the TreeCollection. -/
theorem stale_treefile_merge_counterexample :
    jobsOf (build_gene_trees
        (fun p => if p = "aln2/a.fasta" then ⟨⟨true, [], []⟩, [("a.treefile", "TA")]⟩
          else if p = "aln2/b.fasta" then ⟨⟨true, [], []⟩, [("b.treefile", "TB")]⟩
          else ⟨⟨true, [], []⟩, []⟩)
        "aln2" InputFmt.Fasta
        ⟨[("aln2/a.fasta", "A"), ("aln2/b.fasta", "B"),
          ("gene-treefiles/c.treefile", "STALE")], ["gene-treefiles"]⟩) =
      some ["aln2/a.fasta", "aln2/b.fasta"] ∧
    recsOf (build_gene_trees
        (fun p => if p = "aln2/a.fasta" then ⟨⟨true, [], []⟩, [("a.treefile", "TA")]⟩
          else if p = "aln2/b.fasta" then ⟨⟨true, [], []⟩, [("b.treefile", "TB")]⟩
          else ⟨⟨true, [], []⟩, []⟩)
        "aln2" InputFmt.Fasta
        ⟨[("aln2/a.fasta", "A"), ("aln2/b.fasta", "B"),
          ("gene-treefiles/c.treefile", "STALE")], ["gene-treefiles"]⟩) =
      some ["TA", "TB", "STALE"] ∧
    (["TA", "TB", "STALE"] : List String) ≠ ["TA", "TB"] := by
  refine ⟨by decide, by decide, by decide⟩

/-- Claim C5 (amended): the stage's directory creation is create-if-absent
and never clears existing contents — `fs::create_dir_all` leaves every file
in place — and consequently the Aggregating sweep also picks up stale
primary files: every file currently matching `gene-treefiles/*.treefile`,
whichever run produced it, contributes its trimmed content to the
TreeCollection a rerun writes. -/
theorem dirs_create_if_absent_stale_merge :
    (∀ (fs : FS) (d : String), (fs.createDirAll d).files = fs.files) ∧
    (∀ (fs : FS) (t : String), t ∈ globFS fs TREE_GLOB →
      ∃ fs' recs, combine_gene_trees fs = some (fs', recs) ∧ recOf fs t ∈ recs) := by
  refine ⟨fun fs d => FS.createDirAll_files fs d, fun fs t ht => ?_⟩
  exact ⟨_, _, combine_spec fs, List.mem_map_of_mem _ ht⟩

/-- Claim C5 (amended) witness: creating the tree-output directory over a
state already holding a stale `gene-treefiles/stale.treefile` keeps that
file, and aggregation picks its trimmed content up. -/
theorem dirs_create_if_absent_stale_merge_witness :
    (FS.files (FS.createDirAll
        ⟨[("gene-treefiles/stale.treefile", "S")], ["gene-treefiles"]⟩ "gene-treefiles") =
      [("gene-treefiles/stale.treefile", "S")]) ∧
    (∃ fs' recs,
      combine_gene_trees ⟨[("gene-treefiles/stale.treefile", "S")], ["gene-treefiles"]⟩ =
        some (fs', recs) ∧
      recOf ⟨[("gene-treefiles/stale.treefile", "S")], ["gene-treefiles"]⟩
        "gene-treefiles/stale.treefile" ∈ recs) :=
  ⟨dirs_create_if_absent_stale_merge.1
      ⟨[("gene-treefiles/stale.treefile", "S")], ["gene-treefiles"]⟩ "gene-treefiles",
    dirs_create_if_absent_stale_merge.2
      ⟨[("gene-treefiles/stale.treefile", "S")], ["gene-treefiles"]⟩
      "gene-treefiles/stale.treefile" (by decide)⟩

/-! ## Claim C2: one faulted job out of N is isolated -/

/-- Claim C2: a single faulted Job out of N is isolated: with every other
Job succeeding and leaving exactly one primary (`treefile`-extension)
artifact while the faulted Job leaves none, the batch still completes, the
failure log holds exactly the faulted alignment path (with the decoded
captured streams), every discovered alignment is dispatched, the faulted
Job's artifacts still go through collection — they are readable at their
archive destinations in the final state — and the TreeCollection has
exactly N-1 records. -/
theorem gene_batch_isolated_failure (oracle : Oracle) (dir : String) (fmt : InputFmt)
    (fs : FS) (pbad : String)
    (h1 : ∀ p ∈ globFS fs (getPattern dir fmt), (fileStem p).isSome)
    (h2 : ∀ p ∈ globFS fs (getPattern dir fmt), ∀ c ∈ (stemOf p).data, c ≠ '/')
    (h3 : ∀ p ∈ globFS fs (getPattern dir fmt), ∀ f ∈ (oracle p).produced.map Prod.fst,
      globMatch (stemOf p ++ ".*") f = true ∧ (fileExt f).isSome)
    (h4 : ∀ p ∈ globFS fs (getPattern dir fmt), ((oracle p).produced.map Prod.fst).Nodup)
    (h6 : ∀ p ∈ globFS fs (getPattern dir fmt), ∀ k ∈ fs.keys,
      globMatch (stemOf p ++ ".*") k = false)
    (h7 : ((movedPairs oracle (globFS fs (getPattern dir fmt))).map Prod.fst).Nodup)
    (h8 : ∀ k ∈ (movedPairs oracle (globFS fs (getPattern dir fmt))).map Prod.fst,
      k ∉ fs.keys)
    (h9 : fs.keys.Nodup)
    (h10 : ∀ p ∈ globFS fs (getPattern dir fmt), (oracle p).out.success = false →
      (utf8DecodeCps (oracle p).out.stdout).isSome ∧
        (utf8DecodeCps (oracle p).out.stderr).isSome)
    (h11 : 2 ≤ (globFS fs (getPattern dir fmt)).length)
    (hbad : pbad ∈ globFS fs (getPattern dir fmt))
    (hfail : (oracle pbad).out.success = false)
    (hrest : ∀ q ∈ globFS fs (getPattern dir fmt), q ≠ pbad →
      (oracle q).out.success = true)
    (hone : ∀ q ∈ globFS fs (getPattern dir fmt), q ≠ pbad →
      ((oracle q).produced.map Prod.fst).countP
        (fun f => fileExt f == some "treefile") = 1)
    (hzero : ((oracle pbad).produced.map Prod.fst).countP
      (fun f => fileExt f == some "treefile") = 0)
    (hclean : ∀ k ∈ fs.keys, globMatch TREE_GLOB k = false) :
    ∃ fsB,
      build_gene_trees oracle dir fmt fs =
        .ok ((fsB.create GENE_TREE_NAME "").create GENE_TREE_NAME
            (String.join (((globFS fsB TREE_GLOB).map (recOf fsB)).map (fun r => r ++ "\n"))))
          [failLog (oracle pbad).out pbad]
          (globFS fs (getPattern dir fmt))
          ((globFS fsB TREE_GLOB).map (recOf fsB)) ∧
      ((globFS fsB TREE_GLOB).map (recOf fsB)).length =
        (globFS fs (getPattern dir fmt)).length - 1 ∧
      (∀ nc ∈ (oracle pbad).produced,
        fsB.read (geneDest (stemOf pbad) nc.1) = some nc.2) := by
  obtain ⟨fsB, hok, hperm, hknd⟩ :=
    build_gene_trees_spec oracle dir fmt fs h1 h2 h3 h4 h6 h7 h8 h9 h10 h11
  have hnd : (globFS fs (getPattern dir fmt)).Nodup := globFS_nodup _ h9
  have hlogs : batchLogs oracle (globFS fs (getPattern dir fmt)) =
      [failLog (oracle pbad).out pbad] := by
    rw [batchLogs,
      filter_eq_singleton_of_unique hnd hbad (by simp [hfail])
        (fun x hx hne => by simp [hrest x hx hne]),
      List.map_cons, List.map_nil]
  have hkp : List.Perm fsB.keys
      ((movedPairs oracle (globFS fs (getPattern dir fmt))).map Prod.fst ++ fs.keys) := by
    have h := hperm.map Prod.fst
    rw [List.map_append] at h
    exact h
  have hcnt : ((globFS fsB TREE_GLOB).map (recOf fsB)).length =
      (globFS fs (getPattern dir fmt)).length - 1 := by
    rw [List.length_map, globFS_length, ← List.countP_eq_length_filter,
      List.Perm.countP_eq _ hkp, List.countP_append]
    have hz : fs.keys.countP (globMatch TREE_GLOB) = 0 :=
      List.countP_eq_zero.2 (fun k hk => by simp [hclean k hk])
    rw [hz, Nat.add_zero, movedPairs_keys, countP_flatten, List.map_map]
    refine sum_map_one_except _ hnd hbad ?_ ?_
    · show (((oracle pbad).produced.map Prod.fst).map
          (geneDest (stemOf pbad))).countP (globMatch TREE_GLOB) = 0
      rw [countP_map_str, countP_congr_mem (fun f hf =>
        globMatch_geneDest (no_slash_of_match_pfx (h2 pbad hbad) (h3 pbad hbad f hf).1))]
      exact hzero
    · intro q hq hqne
      show (((oracle q).produced.map Prod.fst).map
          (geneDest (stemOf q))).countP (globMatch TREE_GLOB) = 1
      rw [countP_map_str, countP_congr_mem (fun f hf =>
        globMatch_geneDest (no_slash_of_match_pfx (h2 q hq) (h3 q hq f hf).1))]
      exact hone q hq hqne
  have hart : ∀ nc ∈ (oracle pbad).produced,
      fsB.read (geneDest (stemOf pbad) nc.1) = some nc.2 := by
    intro nc hnc
    have hpair : (geneDest (stemOf pbad) nc.1, nc.2) ∈
        movedPairs oracle (globFS fs (getPattern dir fmt)) := by
      rw [movedPairs]
      refine List.mem_flatten.2 ⟨jobPairs oracle pbad, List.mem_map_of_mem _ hbad, ?_⟩
      rw [jobPairs]
      exact List.mem_map_of_mem _ hnc
    exact lookup_eq_some_of_mem hknd (hperm.mem_iff.2 (List.mem_append_left _ hpair))
  refine ⟨fsB, ?_, hcnt, hart⟩
  rw [← hlogs]
  exact hok

/-- Claim C2 witness: a three-locus batch where the middle Job fails (with
byte-valid captured streams and only a `b.log` artifact) while the other two
each leave one primary file; the run completes with one failure-log entry
and two TreeCollection records. -/
theorem gene_batch_isolated_failure_witness :
    ∃ fsB,
      build_gene_trees
          (fun p => if p = "aln3c/a.fasta" then ⟨⟨true, [], []⟩, [("a.treefile", "RA")]⟩
            else if p = "aln3c/b.fasta" then ⟨⟨false, [0x62], [0x45]⟩, [("b.log", "BL")]⟩
            else if p = "aln3c/c.fasta" then ⟨⟨true, [], []⟩, [("c.treefile", "RC")]⟩
            else ⟨⟨true, [], []⟩, []⟩)
          "aln3c" InputFmt.Fasta
          ⟨[("aln3c/a.fasta", "A"), ("aln3c/b.fasta", "B"), ("aln3c/c.fasta", "C")], []⟩ =
        .ok ((fsB.create GENE_TREE_NAME "").create GENE_TREE_NAME
            (String.join (((globFS fsB TREE_GLOB).map (recOf fsB)).map (fun r => r ++ "\n"))))
          [failLog ((fun p =>
              if p = "aln3c/a.fasta" then ⟨⟨true, [], []⟩, [("a.treefile", "RA")]⟩
              else if p = "aln3c/b.fasta" then ⟨⟨false, [0x62], [0x45]⟩, [("b.log", "BL")]⟩
              else if p = "aln3c/c.fasta" then ⟨⟨true, [], []⟩, [("c.treefile", "RC")]⟩
              else ⟨⟨true, [], []⟩, []⟩ : Oracle) "aln3c/b.fasta").out "aln3c/b.fasta"]
          (globFS ⟨[("aln3c/a.fasta", "A"), ("aln3c/b.fasta", "B"), ("aln3c/c.fasta", "C")], []⟩
            (getPattern "aln3c" InputFmt.Fasta))
          ((globFS fsB TREE_GLOB).map (recOf fsB)) ∧
      ((globFS fsB TREE_GLOB).map (recOf fsB)).length =
        (globFS ⟨[("aln3c/a.fasta", "A"), ("aln3c/b.fasta", "B"), ("aln3c/c.fasta", "C")], []⟩
          (getPattern "aln3c" InputFmt.Fasta)).length - 1 ∧
      (∀ nc ∈ ((fun p =>
          if p = "aln3c/a.fasta" then ⟨⟨true, [], []⟩, [("a.treefile", "RA")]⟩
          else if p = "aln3c/b.fasta" then ⟨⟨false, [0x62], [0x45]⟩, [("b.log", "BL")]⟩
          else if p = "aln3c/c.fasta" then ⟨⟨true, [], []⟩, [("c.treefile", "RC")]⟩
          else ⟨⟨true, [], []⟩, []⟩ : Oracle) "aln3c/b.fasta").produced,
        FS.read fsB (geneDest (stemOf "aln3c/b.fasta") nc.1) = some nc.2) :=
  gene_batch_isolated_failure
    (fun p => if p = "aln3c/a.fasta" then ⟨⟨true, [], []⟩, [("a.treefile", "RA")]⟩
      else if p = "aln3c/b.fasta" then ⟨⟨false, [0x62], [0x45]⟩, [("b.log", "BL")]⟩
      else if p = "aln3c/c.fasta" then ⟨⟨true, [], []⟩, [("c.treefile", "RC")]⟩
      else ⟨⟨true, [], []⟩, []⟩)
    "aln3c" InputFmt.Fasta
    ⟨[("aln3c/a.fasta", "A"), ("aln3c/b.fasta", "B"), ("aln3c/c.fasta", "C")], []⟩
    "aln3c/b.fasta"
    (by decide) (by decide) (by decide) (by decide) (by decide)
    (by decide) (by decide) (by decide) (by decide) (by decide)
    (by decide) (by decide) (by decide) (by decide) (by decide) (by decide)

end Myte
